import Mathlib

/-!
Verification development for the Price-Weight-Comparison-Injector engine
(src/content.js).  The JavaScript source is shallowly embedded: strings are
Lean `String`s (lists of characters), the two fixed regular expressions are
implemented as executable scanners with the exact backtracking behaviour the
JS regex engine exhibits on these patterns, JS numbers are modelled as `ℚ`
(on every value the engine actually produces, IEEE doubles and rationals
agree after rounding to two decimals), and the DOM is a rose tree of element
and text nodes with numeric element identities.  The document root plays the
role of `document.body`; walking above it ends the ancestor walk, as it does
in the real DOM once `parentElement` becomes null.
-/

namespace PWCI

/-! ### Character classes  (`\d`, `\s` of the JS regexes) -/

def isDigitCh (c : Char) : Bool := c.isDigit

def isWsCh (c : Char) : Bool := c = ' ' || c = '\t' || c = '\n' || c = '\r'

/-- Case folding used by the `/i` flag, restricted to the alphabet of the two
patterns.  `altCase` sends each lowercase pattern character to the uppercase
character it also matches (the source file literally contains the two-byte
sequence `Â£` in the price pattern, so that two-character token is kept). -/
def altCase (c : Char) : Char :=
  match c with
  | 'k' => 'K' | 'r' => 'R' | 's' => 'S' | 'e' => 'E' | 'u' => 'U' | 'o' => 'O'
  | 'g' => 'G' | 'b' => 'B' | 'p' => 'P' | 'd' => 'D' | 'm' => 'M' | 'l' => 'L'
  | 'Â' => 'â'
  | _ => c

/-- Case-insensitive comparison of one pattern character against a subject
character. -/
def ciEq (pat c : Char) : Bool := c = pat || c = altCase pat

/-- Case-insensitive check that the token `tok` is a prefix of `s`. -/
def ciStarts : List Char → List Char → Bool
  | [], _ => true
  | _ :: _, [] => false
  | p :: ps, c :: cs => ciEq p c && ciStarts ps cs

/-- Try the alternation tokens in order (as the regex engine does) and return
the matched slice of the subject. -/
def tokenAt (toks : List (List Char)) (s : List Char) : Option (List Char) :=
  (toks.find? fun tok => ciStarts tok s).map fun tok => s.take tok.length

/-- Greedily split off a leading run of digits. -/
def takeDigits : List Char → List Char × List Char
  | [] => ([], [])
  | c :: cs =>
    if isDigitCh c then
      let p := takeDigits cs
      (c :: p.1, p.2)
    else ([], c :: cs)

/-- Match `(\d+[.,]\d+|\d+)` at the head of `s`, returning the numeric literal
(capture group 1) and the remaining input.  The greedy choice is exact here:
tokens never begin with a digit, a separator or whitespace, so the regex
engine's backtracking can never prefer a shorter digit run. -/
def matchNumAt (s : List Char) : Option (List Char × List Char) :=
  let p := takeDigits s
  if p.1 = [] then none
  else
    match p.2 with
    | [] => some (p.1, [])
    | c :: r2 =>
      if c = '.' || c = ',' then
        let q := takeDigits r2
        if q.1 = [] then some (p.1, p.2) else some (p.1 ++ c :: q.1, q.2)
      else some (p.1, p.2)

/-- Match the full pattern `(\d+[.,]\d+|\d+)\s*(tok1|tok2|...)` anchored at
the head of `s`; returns (numeric literal, matched unit or currency token). -/
def matchAt (toks : List (List Char)) (s : List Char) : Option (List Char × List Char) :=
  match matchNumAt s with
  | none => none
  | some (lit, rest) =>
    match tokenAt toks (rest.dropWhile isWsCh) with
    | none => none
    | some t => some (lit, t)

/-- Leftmost match of the unanchored pattern, as `String.prototype.match`
computes it. -/
def scanMatch (toks : List (List Char)) : List Char → Option (List Char × List Char)
  | [] => none
  | c :: cs =>
    match matchAt toks (c :: cs) with
    | some r => some r
    | none => scanMatch toks cs

/-- Alternation of PRICE_REGEX, in source order:
`kr|sek|eur|euro|\$|Â£|usd|gbp`. -/
def priceToks : List (List Char) :=
  [['k', 'r'], ['s', 'e', 'k'], ['e', 'u', 'r'], ['e', 'u', 'r', 'o'],
   ['$'], ['Â', '£'], ['u', 's', 'd'], ['g', 'b', 'p']]

/-- Alternation of WEIGHT_REGEX, in source order: `g|kg|l|ml`. -/
def weightToks : List (List Char) := [['g'], ['k', 'g'], ['l'], ['m', 'l']]

/-- First match of PRICE_REGEX in a string: capture groups 1 and 2. -/
def priceMatch (s : String) : Option (List Char × List Char) := scanMatch priceToks s.data

/-- First match of WEIGHT_REGEX in a string: capture groups 1 and 2. -/
def weightMatch (s : String) : Option (List Char × List Char) := scanMatch weightToks s.data

def priceTest (s : String) : Bool := (priceMatch s).isSome

def weightTest (s : String) : Bool := (weightMatch s).isSome

/-! ### Numeric normalizer  (`cleanNumber`, line 17-20) -/

/-- Replace the first occurrence of a character, as `value.replace(",", ".")`
does for string arguments. -/
def replaceFirst (a b : Char) : List Char → List Char
  | [] => []
  | c :: cs => if c = a then b :: cs else c :: replaceFirst a b cs

def natOfDigits (l : List Char) : ℕ :=
  l.foldl (fun n c => 10 * n + (c.toNat - 48)) 0

/-- Model of `parseFloat` on the literals this program feeds it: parse a
leading decimal literal, ignore any trailing input, and return `none`
(the model of NaN) when no digit is found. -/
def parseDec (s : List Char) : Option ℚ :=
  let p := takeDigits s
  match p.2 with
  | '.' :: r =>
    let q := takeDigits r
    if p.1 = [] && q.1 = [] then none
    else some ((natOfDigits p.1 : ℚ) + (natOfDigits q.1 : ℚ) / (10 ^ q.1.length : ℚ))
  | _ => if p.1 = [] then none else some (natOfDigits p.1)

/-- Embedding of `cleanNumber` (content.js line 17-20): replace a comma
fractional separator with a dot, then parse as a number; `none` models NaN. -/
def cleanNumber (s : String) : Option ℚ := parseDec (replaceFirst ',' '.' s.data)

/-! ### Formatting  (`toFixed(2)` and `calculateAndFormatUnit`, line 29-46) -/

def digitChar (n : ℕ) : Char :=
  match n with
  | 0 => '0' | 1 => '1' | 2 => '2' | 3 => '3' | 4 => '4'
  | 5 => '5' | 6 => '6' | 7 => '7' | 8 => '8' | 9 => '9'
  | _ => '*'

def natCharsAux : ℕ → ℕ → List Char
  | 0, _ => []
  | fuel + 1, n =>
    if n < 10 then [digitChar n]
    else natCharsAux fuel (n / 10) ++ [digitChar (n % 10)]

/-- Decimal digits of a natural number. -/
def natChars (n : ℕ) : List Char := natCharsAux (n + 1) n

/-- Model of `Number.prototype.toFixed(2)`: the integer nearest to `100·q`,
ties resolved upward (ECMA-262 picks the larger candidate), printed with two
fractional digits. -/
def toFixed2 (q : ℚ) : String :=
  let n : ℤ := Rat.floor (q * 100 + 1 / 2)
  let m : ℕ := n.natAbs
  (if n < 0 then "-" else "") ++
    { data := natChars (m / 100) } ++ "." ++
    { data := [digitChar (m / 10 % 10), digitChar (m % 10)] }

/-- ASCII lowercasing of one character, the effect `toLowerCase()` has on the
unit tokens this program handles. -/
def lowerCh (c : Char) : Char :=
  match c with
  | 'A' => 'a' | 'B' => 'b' | 'C' => 'c' | 'D' => 'd' | 'E' => 'e' | 'F' => 'f'
  | 'G' => 'g' | 'H' => 'h' | 'I' => 'i' | 'J' => 'j' | 'K' => 'k' | 'L' => 'l'
  | 'M' => 'm' | 'N' => 'n' | 'O' => 'o' | 'P' => 'p' | 'Q' => 'q' | 'R' => 'r'
  | 'S' => 's' | 'T' => 't' | 'U' => 'u' | 'V' => 'v' | 'W' => 'w' | 'X' => 'x'
  | 'Y' => 'y' | 'Z' => 'z'
  | _ => c

/-- Model of `String.prototype.toLowerCase()` (ASCII). -/
def strToLower (s : String) : String := { data := s.data.map lowerCh }

/-- Embedding of `calculateAndFormatUnit` (content.js line 29-46). -/
def calculateAndFormatUnit (priceKr weightValue : ℚ) (unit : String) : String :=
  let lowerUnit := strToLower unit
  if lowerUnit == "g" || lowerUnit == "ml" then
    let pricePerBaseUnit := priceKr / weightValue * 1000
    let displayUnit := if lowerUnit == "g" then "kg" else "L"
    "~" ++ toFixed2 pricePerBaseUnit ++ " / " ++ displayUnit
  else
    let pricePerBaseUnit := priceKr / weightValue
    let displayUnit := if lowerUnit == "kg" then "kg" else "L"
    "~" ++ toFixed2 pricePerBaseUnit ++ " / " ++ displayUnit

/-! ### The document tree

A node is an element (with identity, tag name, class list, the boolean
`data-unit-price-processed` attribute, and children) or a text node.  The
root element models `document.body`; `parentElement` above it is null. -/

inductive DNode : Type where
  | elem (id : ℕ) (tag : String) (classes : List String) (processed : Bool)
      (children : List DNode)
  | text (s : String)

def DNode.isElem : DNode → Bool
  | .elem _ _ _ _ _ => true
  | .text _ => false

def DNode.idOf : DNode → ℕ
  | .elem i _ _ _ _ => i
  | .text _ => 0

def DNode.tagOf : DNode → String
  | .elem _ t _ _ _ => t
  | .text _ => ""

def DNode.classesOf : DNode → List String
  | .elem _ _ cl _ _ => cl
  | .text _ => []

def DNode.processedOf : DNode → Bool
  | .elem _ _ _ p _ => p
  | .text _ => false

def DNode.childrenOf : DNode → List DNode
  | .elem _ _ _ _ cs => cs
  | .text _ => []

mutual

/-- Concatenated text of all descendant text nodes (`textContent`). -/
def textChars : DNode → List Char
  | .elem _ _ _ _ cs => textCharsList cs
  | .text s => s.data

def textCharsList : List DNode → List Char
  | [] => []
  | n :: ns => textChars n ++ textCharsList ns

end

def textContent (n : DNode) : String := { data := textChars n }

mutual

/-- Proper element descendants in document (preorder) order, as
`querySelectorAll("*")` enumerates them. -/
def descElems : DNode → List DNode
  | .elem _ _ _ _ cs => descElemsList cs
  | .text _ => []

def descElemsList : List DNode → List DNode
  | [] => []
  | n :: ns =>
    (match n with
     | .elem _ _ _ _ _ => [n]
     | .text _ => []) ++ descElems n ++ descElemsList ns

end

/-- Element children (`el.children`). -/
def elemChildren (n : DNode) : List DNode := n.childrenOf.filter DNode.isElem

mutual

/-- Identities of all element nodes in a tree. -/
def nodeIds : DNode → List ℕ
  | .elem i _ _ _ cs => i :: nodeIdsList cs
  | .text _ => []

def nodeIdsList : List DNode → List ℕ
  | [] => []
  | n :: ns => nodeIds n ++ nodeIdsList ns

end

mutual

/-- First element (in document order) with the given identity. -/
def findElem (i : ℕ) : DNode → Option DNode
  | .elem j t cl p cs =>
    if j = i then some (.elem j t cl p cs) else findElemList i cs
  | .text _ => none

def findElemList (i : ℕ) : List DNode → Option DNode
  | [] => none
  | n :: ns =>
    match findElem i n with
    | some r => some r
    | none => findElemList i ns

end

/-- Processed flag of the element with identity `i`. -/
def getProcessed (i : ℕ) (t : DNode) : Option Bool := (findElem i t).map DNode.processedOf

mutual

/-- Set the processed attribute on every element with identity `i`
(`setAttribute(PROCESSED_ATTR, 'true')`; identities are unique in
well-formed trees). -/
def setProcessed (i : ℕ) : DNode → DNode
  | .elem j t cl p cs => .elem j t cl (if j = i then true else p) (setProcessedList i cs)
  | .text s => .text s

def setProcessedList (i : ℕ) : List DNode → List DNode
  | [] => []
  | n :: ns => setProcessed i n :: setProcessedList i ns

end

mutual

/-- Insert `nn` immediately after every element with identity `i` in its
parent's child list (`parentNode.insertBefore(nn, el.nextSibling)`). -/
def insertAfterId (i : ℕ) (nn : DNode) : DNode → DNode
  | .elem j t cl p cs => .elem j t cl p (insertAfterIdList i nn cs)
  | .text s => .text s

def insertAfterIdList (i : ℕ) (nn : DNode) : List DNode → List DNode
  | [] => []
  | n :: ns =>
    if n.isElem && n.idOf = i then
      insertAfterId i nn n :: nn :: insertAfterIdList i nn ns
    else
      insertAfterId i nn n :: insertAfterIdList i nn ns

end

mutual

/-- Ancestor chain of the first element with identity `i`: the element itself
first, then its parent, up to (and including) the root. -/
def chainTo (i : ℕ) : DNode → Option (List DNode)
  | .elem j t cl p cs =>
    if j = i then some [.elem j t cl p cs]
    else
      match chainToList i cs with
      | some l => some (l ++ [.elem j t cl p cs])
      | none => none
  | .text _ => none

def chainToList (i : ℕ) : List DNode → Option (List DNode)
  | [] => none
  | n :: ns =>
    match chainTo i n with
    | some l => some l
    | none => chainToList i ns

end

def firstElem : List DNode → Option DNode
  | [] => none
  | n :: ns => if n.isElem then some n else firstElem ns

mutual

/-- Next element sibling (`el.nextElementSibling`) of the first element with
identity `i`. -/
def nextElemSibling (i : ℕ) : DNode → Option DNode
  | .elem _ _ _ _ cs => nextElemSiblingList i cs
  | .text _ => none

def nextElemSiblingList (i : ℕ) : List DNode → Option DNode
  | [] => none
  | n :: ns =>
    if n.isElem && n.idOf = i then firstElem ns
    else
      match nextElemSibling i n with
      | some r => some r
      | none => nextElemSiblingList i ns

end

/-- An identity unused by any element of the tree, for freshly created
elements. -/
def freshId (t : DNode) : ℕ := (nodeIds t).foldr max 0 + 1

/-! ### The engine  (content.js lines 52-207) -/

/-- The reserved marker class of injected annotations. -/
def annotationClass : String := "unit-price-kr-kg-appended"

def ignoredTags : List String :=
  ["SCRIPT", "STYLE", "NOSCRIPT", "HTML", "HEAD", "META", "LINK"]

/-- Filter of `potentialPriceElements` (content.js line 58-81): not an
ignored tag, not an injected annotation, not the body, text matches the
price pattern, and no element child's text also matches (leaf preference). -/
def isCandidate (root el : DNode) : Bool :=
  el.isElem
    && !(ignoredTags.contains el.tagOf)
    && !(el.classesOf.contains annotationClass)
    && el.idOf != root.idOf
    && priceTest (textContent el)
    && !((elemChildren el).any fun ch => priceTest (textContent ch))

/-- Identities of the candidate elements, in document order — the snapshot
the pass iterates over. -/
def candidateIds (root : DNode) : List ℕ :=
  ((descElems root).filter (isCandidate root)).map DNode.idOf

/-- Descendants of a container whose text matches the weight pattern
(content.js line 105-107). -/
def weightMatchesOf (c : DNode) : List DNode :=
  (descElems c).filter fun el => weightTest (textContent el)

structure BestMatch where
  container : ℕ
  elPrice : ℕ
  priceKr : ℚ
  weightValue : ℚ
  weightUnit : String
  deriving DecidableEq

/-- Outcome of the ancestor walk for one candidate: a validated product
block, the early `return` on a processed container (line 100-102), or
normal loop exhaustion. -/
inductive WalkResult where
  | found (bm : BestMatch)
  | aborted
  | exhausted
  deriving DecidableEq

/-- The ancestor walk of content.js line 98-141: at each of up to `fuel`
(= 8) chain levels, abort if the container is processed, otherwise look for
the first weight-matching descendant, validate the extracted pair, and stop
with a `BestMatch` on success. -/
def walkLoop (elPrice : DNode) : List DNode → ℕ → WalkResult
  | _, 0 => .exhausted
  | [], _ + 1 => .exhausted
  | c :: rest, fuel + 1 =>
    if c.processedOf then .aborted
    else
      match weightMatchesOf c with
      | [] => walkLoop elPrice rest fuel
      | wEl :: _ =>
        match priceMatch (textContent elPrice), weightMatch (textContent wEl) with
        | some pm, some wm =>
          match cleanNumber { data := pm.1 }, cleanNumber { data := wm.1 } with
          | some priceKr, some weightValue =>
            if 0 < priceKr ∧ 0 < weightValue then
              .found ⟨c.idOf, elPrice.idOf, priceKr, weightValue, { data := wm.2 }⟩
            else walkLoop elPrice rest fuel
          | _, _ => walkLoop elPrice rest fuel
        | _, _ => walkLoop elPrice rest fuel

/-- Embedding of `processProductBlock` (content.js line 158-200): mark the
price element processed, skip if it is the body or detached, skip if an
annotation already immediately follows it, otherwise build the annotation
span and insert it right after the price element. -/
def processProductBlock (root : DNode) (bm : BestMatch) : DNode :=
  let root1 := setProcessed bm.elPrice root
  if bm.elPrice = root1.idOf then root1
  else
    match findElem bm.elPrice root1 with
    | none => root1
    | some _ =>
      let dup :=
        match nextElemSibling bm.elPrice root1 with
        | some sib => sib.classesOf.contains annotationClass
        | none => false
      if dup then root1
      else
        let unitPriceText := calculateAndFormatUnit bm.priceKr bm.weightValue bm.weightUnit
        let span : DNode :=
          .elem (freshId root1) "SPAN" [annotationClass] false [.text ("- " ++ unitPriceText)]
        insertAfterId bm.elPrice span root1

/-- One iteration of the `forEach` of content.js line 86-151 for candidate
identity `cid`: skip already-processed candidates, run the ancestor walk,
then mark the container and call the injector. -/
def processOne (root : DNode) (cid : ℕ) : DNode :=
  match findElem cid root with
  | none => root
  | some el =>
    if el.processedOf then root
    else
      match chainTo cid root with
      | none => root
      | some chain =>
        match walkLoop el chain 8 with
        | .found bm =>
          if getProcessed bm.container root = some true then root
          else processProductBlock (setProcessed bm.container root) bm
        | _ => root

/-- Embedding of `findAndProcessPrices` (content.js line 52-152): snapshot
the candidates, then process each in document order. -/
def findAndProcessPrices (root : DNode) : DNode :=
  (candidateIds root).foldl processOne root

/-! ### Instrumented pass

The same computation, additionally reporting the `ProductBlock`s that reach
the injector and the identities of the price elements for which an
annotation is actually inserted.  These are observation channels only; the
returned tree is proved equal to the plain functions above. -/

/-- `processProductBlock` plus a flag reporting whether the insertion was
executed. -/
def processProductBlockEv (root : DNode) (bm : BestMatch) : DNode × Bool :=
  let root1 := setProcessed bm.elPrice root
  if bm.elPrice = root1.idOf then (root1, false)
  else
    match findElem bm.elPrice root1 with
    | none => (root1, false)
    | some _ =>
      let dup :=
        match nextElemSibling bm.elPrice root1 with
        | some sib => sib.classesOf.contains annotationClass
        | none => false
      if dup then (root1, false)
      else
        let unitPriceText := calculateAndFormatUnit bm.priceKr bm.weightValue bm.weightUnit
        let span : DNode :=
          .elem (freshId root1) "SPAN" [annotationClass] false [.text ("- " ++ unitPriceText)]
        (insertAfterId bm.elPrice span root1, true)

/-- `processOne` plus the injector call (if any) and the insertion flag. -/
def processOneEv (root : DNode) (cid : ℕ) : DNode × Option BestMatch × Bool :=
  match findElem cid root with
  | none => (root, none, false)
  | some el =>
    if el.processedOf then (root, none, false)
    else
      match chainTo cid root with
      | none => (root, none, false)
      | some chain =>
        match walkLoop el chain 8 with
        | .found bm =>
          if getProcessed bm.container root = some true then (root, none, false)
          else
            let r := processProductBlockEv (setProcessed bm.container root) bm
            (r.1, some bm, r.2)
        | _ => (root, none, false)

/-- Run the pass over a candidate snapshot, collecting the injector calls
and the identities of price elements that received an insertion. -/
def runPass : DNode → List ℕ → DNode × List BestMatch × List ℕ
  | root, [] => (root, [], [])
  | root, c :: cs =>
    let r := processOneEv root c
    let rest := runPass r.1 cs
    (rest.1, r.2.1.toList ++ rest.2.1, (if r.2.2 then [c] else []) ++ rest.2.2)

/-- The instrumented full pass. -/
def findAndProcessPricesEv (root : DNode) : DNode × List BestMatch × List ℕ :=
  runPass root (candidateIds root)

/-- Iterated engine passes (no external mutation in between). -/
def passes : ℕ → DNode → DNode
  | 0, t => t
  | n + 1, t => passes n (findAndProcessPrices t)

/-- Iterated passes, collecting all insertion events. -/
def passesEv : ℕ → DNode → DNode × List ℕ
  | 0, t => (t, [])
  | n + 1, t =>
    let r := findAndProcessPricesEv t
    let rest := passesEv n r.1
    (rest.1, r.2.2 ++ rest.2)

/-- Number of annotation elements in the tree. -/
def countAnnotations (t : DNode) : ℕ :=
  ((descElems t).filter fun n => n.classesOf.contains annotationClass).length

/-! ### The mutation observer filter  (content.js lines 226-241) -/

structure MutationRecord where
  addedNodes : List DNode

/-- One added node counts as a self-mutation when it is an element that
carries the annotation class or contains a descendant that does
(content.js line 230-233). -/
def nodeSelfMut (n : DNode) : Bool :=
  n.isElem &&
    (n.classesOf.contains annotationClass
      || (descElems n).any fun d => d.classesOf.contains annotationClass)

/-- `hasSelfMutation` of content.js line 228-236. -/
def hasSelfMutation (muts : List MutationRecord) : Bool :=
  muts.any fun m => m.addedNodes.any nodeSelfMut

/-- The observer callback schedules a new pass exactly when no self-mutation
was detected (content.js line 238-240). -/
def observerSchedules (muts : List MutationRecord) : Bool := !hasSelfMutation muts

def isAnnotationElem (n : DNode) : Bool :=
  n.isElem && n.classesOf.contains annotationClass

/-- Modelled from the spec: the suppression condition of section 4.7 — the
spec asks that scheduling be suppressed exactly when EVERY added node in the
batch is, or exclusively contains, an Annotation element.  This predicate
follows the spec's words (the code under src/ implements a different
condition); it exists to compare the claim against the code. -/
def specSuppressesScheduling (muts : List MutationRecord) : Bool :=
  muts.all fun m =>
    m.addedNodes.all fun n =>
      isAnnotationElem n
        || (n.isElem && !(descElems n).isEmpty && (descElems n).all isAnnotationElem)

/-! ### Helper lemmas: unfolding the calculator at each unit -/

theorem calcFormat_g (p w : ℚ) :
    calculateAndFormatUnit p w "g" = "~" ++ toFixed2 (p / w * 1000) ++ " / " ++ "kg" := rfl

theorem calcFormat_ml (p w : ℚ) :
    calculateAndFormatUnit p w "ml" = "~" ++ toFixed2 (p / w * 1000) ++ " / " ++ "L" := rfl

theorem calcFormat_kg (p w : ℚ) :
    calculateAndFormatUnit p w "kg" = "~" ++ toFixed2 (p / w) ++ " / " ++ "kg" := rfl

theorem calcFormat_l (p w : ℚ) :
    calculateAndFormatUnit p w "l" = "~" ++ toFixed2 (p / w) ++ " / " ++ "L" := rfl

unseal Rat.mul Rat.add Rat.inv in
/-- Claim C7: the unit price calculation.  For g and ml the rate is
(price / weight) × 1000, otherwise price / weight; the label is kg for g/kg
and L for ml/l; the output is the tilde-prefixed rate rounded to two
decimals followed by the label; and the four numeric examples of the spec,
including the comma-form literal 15,5 normalizing to 15.5. -/
theorem claim_C7_unit_price_calculation :
    (∀ p w : ℚ,
        calculateAndFormatUnit p w "g" = "~" ++ toFixed2 (p / w * 1000) ++ " / " ++ "kg" ∧
        calculateAndFormatUnit p w "ml" = "~" ++ toFixed2 (p / w * 1000) ++ " / " ++ "L" ∧
        calculateAndFormatUnit p w "kg" = "~" ++ toFixed2 (p / w) ++ " / " ++ "kg" ∧
        calculateAndFormatUnit p w "l" = "~" ++ toFixed2 (p / w) ++ " / " ++ "L") ∧
      calculateAndFormatUnit 99 500 "g" = "~198.00 / kg" ∧
      calculateAndFormatUnit 36 800 "g" = "~45.00 / kg" ∧
      calculateAndFormatUnit 20 2 "l" = "~10.00 / L" ∧
      cleanNumber "15,5" = some (31 / 2 : ℚ) ∧
      calculateAndFormatUnit (31 / 2 : ℚ) 250 "ml" = "~62.00 / L" :=
  ⟨fun p w => ⟨calcFormat_g p w, calcFormat_ml p w, calcFormat_kg p w, calcFormat_l p w⟩,
    by decide, by decide, by decide, by decide, by decide⟩

/-! ### Claim C1: the mutation-filter condition -/

/-- An annotation span, as the injector creates it. -/
def sampleSpan : DNode :=
  .elem 101 "SPAN" [annotationClass] false [.text "- ~10.00 / kg"]

/-- An added node of unrelated content. -/
def sampleDiv : DNode := .elem 102 "DIV" [] false [.text "new product 5 kr"]

/-- A notification batch whose additions are one annotation span together
with unrelated content. -/
def mixedBatch : List MutationRecord := [⟨[sampleSpan, sampleDiv]⟩]

/-- Claim C1 is false on the code: for the batch `mixedBatch`, an unrelated
added node is present (the spec condition for suppression does not hold,
second conjunct), so the claim requires scheduling to proceed; but the
observer callback of content.js line 226-241 does not schedule (first
conjunct), because `mutations.some(...)` suppresses as soon as ANY added
node carries or contains the annotation class. -/
theorem claim_C1_counterexample :
    observerSchedules mixedBatch = false ∧ specSuppressesScheduling mixedBatch = false := by
  decide

/-- Claim C1 amended: the callback suppresses scheduling iff SOME added node
of the notification batch is an element that carries the annotation class or
contains an annotation element among its descendants; a batch mixing an
annotation with unrelated content is therefore suppressed as well. -/
theorem claim_C1_amended_filter (muts : List MutationRecord) :
    observerSchedules muts = false ↔
      ∃ m ∈ muts, ∃ n ∈ m.addedNodes, nodeSelfMut n = true := by
  simp [observerSchedules, hasSelfMutation, List.any_eq_true]

/-! ### Claim C2: idempotence of a full pass fails -/

/-- Leaf holding a valid weight. -/
def exV : DNode := .elem 6 "DIV" [] false [.text "40 g"]

/-- The price element processed in the first pass. -/
def exZ : DNode := .elem 5 "DIV" [] false [.text "20 kr 0"]

/-- Container whose text "20 kr 0 g 40 g" has the invalid first weight match
"0 g", formed across the boundary behind `exZ`. -/
def exC : DNode := .elem 4 "DIV" [] false [exZ, .text " g ", exV]

/-- The price element skipped in the first pass but processed in the
second. -/
def exY : DNode := .elem 3 "DIV" [] false [.text "9 kr"]

def exP : DNode := .elem 2 "DIV" [] false [exY, exC]

/-- The counterexample document. -/
def exBody : DNode := .elem 1 "BODY" [] false [exP]

unseal Rat.mul Rat.add Rat.inv in
/-- Claim C2 is false on the code: on `exBody` the first full pass injects
one annotation (for the price element `exZ`, validated against the weight
element `exV` inside it), and the second pass — run on the resulting tree
with no external mutation — injects a NEW annotation (for `exY`).  The span
inserted behind `exZ` splits the text "20 kr 0 g 40 g" of its parent, so
that parent's first weight match changes from the invalid literal 0 to the
valid 40, and the candidate `exY` that failed validation at every level in
the first pass now validates. -/
theorem claim_C2_counterexample :
    countAnnotations (findAndProcessPrices exBody) = 1 ∧
      countAnnotations (findAndProcessPrices (findAndProcessPrices exBody)) = 2 := by
  decide

/-! ### Claims C4, C5, C6: the ancestor walk -/

/-- Observation helper: the walk that `processOne` performs for candidate
`cid` (when the candidate exists in the tree). -/
def candidateWalk (root : DNode) (cid : ℕ) : Option WalkResult :=
  match findElem cid root, chainTo cid root with
  | some el, some chain => some (walkLoop el chain 8)
  | _, _ => none

theorem walkLoop_zero (elP : DNode) (chain : List DNode) :
    walkLoop elP chain 0 = .exhausted := by
  cases chain <;> rfl

theorem walkLoop_nil (elP : DNode) (fuel : ℕ) :
    walkLoop elP [] fuel = .exhausted := by
  cases fuel <;> rfl

theorem walkLoop_take (elP : DNode) :
    ∀ (fuel : ℕ) (chain : List DNode),
      walkLoop elP chain fuel = walkLoop elP (chain.take fuel) fuel := by
  intro fuel
  induction fuel with
  | zero => intro chain; rw [walkLoop_zero, walkLoop_zero]
  | succ n ih =>
    intro chain
    cases chain with
    | nil => rfl
    | cons c rest =>
      simp only [walkLoop, List.take_succ_cons]
      rw [ih rest]

theorem walkLoop_no_weight (elP : DNode) :
    ∀ (fuel : ℕ) (chain : List DNode),
      (∀ c ∈ chain.take fuel, (weightMatchesOf c).isEmpty = true) →
      walkLoop elP chain fuel = .exhausted ∨ walkLoop elP chain fuel = .aborted := by
  intro fuel
  induction fuel with
  | zero => intro chain _; left; exact walkLoop_zero elP chain
  | succ n ih =>
    intro chain h
    cases chain with
    | nil => left; exact walkLoop_nil elP (n + 1)
    | cons c rest =>
      by_cases hp : c.processedOf
      · right; simp [walkLoop, hp]
      · have hc : (weightMatchesOf c).isEmpty = true := by
          apply h; simp [List.take_succ_cons]
        have hrest : ∀ x ∈ rest.take n, (weightMatchesOf x).isEmpty = true := by
          intro x hx
          apply h
          simp only [List.take_succ_cons, List.mem_cons]
          right; exact hx
        have hrec := ih rest hrest
        rw [List.isEmpty_iff] at hc
        simpa [walkLoop, hp, hc] using hrec

theorem processOne_of_walk_not_found (root : DNode) (cid : ℕ) (el : DNode)
    (chain : List DNode) (h1 : findElem cid root = some el)
    (h2 : chainTo cid root = some chain)
    (h3 : walkLoop el chain 8 = .exhausted ∨ walkLoop el chain 8 = .aborted) :
    processOne root cid = root := by
  by_cases hp : el.processedOf
  · simp [processOne, h1, hp]
  · rcases h3 with h3 | h3 <;> simp [processOne, h1, h2, h3, hp]

/-- Claim C4: the walk is bounded.  First, the walk result depends only on
the first `fuel` (= 8) entries of the ancestor chain — no deeper ancestor is
examined.  Second, if no weight-pattern match exists in any of the first 8
chain levels of a candidate, its processing leaves the tree unchanged: no
injection occurs, and no error is raised (the function is total). -/
theorem claim_C4_bounded_walk :
    (∀ (elP : DNode) (fuel : ℕ) (chain : List DNode),
        walkLoop elP chain fuel = walkLoop elP (chain.take fuel) fuel) ∧
      ∀ (root : DNode) (cid : ℕ),
        (∀ c ∈ ((chainTo cid root).getD []).take 8, (weightMatchesOf c).isEmpty = true) →
        processOne root cid = root := by
  refine ⟨fun elP fuel chain => walkLoop_take elP fuel chain, fun root cid h => ?_⟩
  cases h1 : findElem cid root with
  | none => simp [processOne, h1]
  | some el =>
    by_cases hp : el.processedOf
    · simp [processOne, h1, hp]
    · cases h2 : chainTo cid root with
      | none => simp [processOne, h1, h2, hp]
      | some chain =>
        rw [h2] at h
        simp only [Option.getD_some] at h
        exact processOne_of_walk_not_found root cid el chain h1 h2
          (walkLoop_no_weight el 8 chain h)

def deep0 : DNode := .elem 10 "DIV" [] false [.text "5 kr"]
def deep1 : DNode := .elem 11 "DIV" [] false [deep0]
def deep2 : DNode := .elem 12 "DIV" [] false [deep1]
def deep3 : DNode := .elem 13 "DIV" [] false [deep2]
def deep4 : DNode := .elem 14 "DIV" [] false [deep3]
def deep5 : DNode := .elem 15 "DIV" [] false [deep4]
def deep6 : DNode := .elem 16 "DIV" [] false [deep5]
def deep7 : DNode := .elem 17 "DIV" [] false [deep6]

/-- A ninth-level ancestor holding a weight match out of reach of the
bounded walk. -/
def deep8 : DNode :=
  .elem 18 "DIV" [] false [deep7, .elem 19 "DIV" [] false [.text "100 g"]]

def deepBody : DNode := .elem 1 "BODY" [] false [deep8]

theorem claim_C4_bounded_walk_witness :
    (∀ c ∈ ((chainTo 10 deepBody).getD []).take 8, (weightMatchesOf c).isEmpty = true) ∧
      processOne deepBody 10 = deepBody :=
  ⟨by decide, claim_C4_bounded_walk.2 deepBody 10 (by decide)⟩

/-- Claim C5: abort on a processed ancestor.  If the current chain element
bears the processed marker, the walk aborts at once — the result is
`aborted` whatever the rest of the chain holds, so no further ancestor is
visited — and an aborted walk leaves the tree unchanged: no product block,
no injection, no error. -/
theorem claim_C5_abort_on_processed :
    (∀ (elP c : DNode) (rest : List DNode) (fuel : ℕ),
        c.processedOf = true → walkLoop elP (c :: rest) (fuel + 1) = .aborted) ∧
      ∀ (root : DNode) (cid : ℕ),
        candidateWalk root cid = some .aborted → processOne root cid = root := by
  constructor
  · intro elP c rest fuel hc
    simp [walkLoop, hc]
  · intro root cid h
    unfold candidateWalk at h
    cases h1 : findElem cid root with
    | none => simp [processOne, h1]
    | some el =>
      cases h2 : chainTo cid root with
      | none => rw [h1, h2] at h; exact absurd h (by simp)
      | some chain =>
        rw [h1, h2] at h
        simp only [Option.some.injEq] at h
        exact processOne_of_walk_not_found root cid el chain h1 h2 (Or.inr h)

/-- A container already marked processed, above an unprocessed candidate. -/
def markedP : DNode :=
  .elem 2 "DIV" [] true [.elem 3 "DIV" [] false [.text "5 kr"],
    .elem 4 "DIV" [] false [.text "100 g"]]

def markedBody : DNode := .elem 1 "BODY" [] false [markedP]

theorem claim_C5_abort_on_processed_witness :
    candidateWalk markedBody 3 = some .aborted ∧ processOne markedBody 3 = markedBody :=
  ⟨by decide, claim_C5_abort_on_processed.2 markedBody 3 (by decide)⟩

theorem walkLoop_found_pos (elP : DNode) :
    ∀ (fuel : ℕ) (chain : List DNode) (bm : BestMatch),
      walkLoop elP chain fuel = .found bm → 0 < bm.priceKr ∧ 0 < bm.weightValue := by
  intro fuel
  induction fuel with
  | zero =>
    intro chain bm h
    rw [walkLoop_zero] at h
    exact WalkResult.noConfusion h
  | succ n ih =>
    intro chain bm h
    cases chain with
    | nil =>
      rw [walkLoop_nil] at h
      exact WalkResult.noConfusion h
    | cons c rest =>
      simp only [walkLoop] at h
      split at h
      · exact WalkResult.noConfusion h
      · split at h
        · exact ih rest bm h
        · split at h
          · split at h
            · split at h
              · rename_i hpos
                cases h
                exact hpos
              · exact ih rest bm h
            · exact ih rest bm h
          · exact ih rest bm h

/-- Claim C6: the validation guard.  A walk can only return a product block
whose normalized price and weight both parsed (are not NaN) and are strictly
positive; and the processing of each candidate either leaves the tree unchanged
or reaches the injector with such a validated block — so the calculator is
never invoked with weight 0 and a weight literal of 0 or an unparseable
literal never yields an annotation. -/
theorem claim_C6_validation_guard :
    (∀ (elP : DNode) (chain : List DNode) (fuel : ℕ) (bm : BestMatch),
        walkLoop elP chain fuel = .found bm → 0 < bm.priceKr ∧ 0 < bm.weightValue) ∧
      ∀ (root : DNode) (cid : ℕ),
        processOne root cid = root ∨
          ∃ bm : BestMatch, candidateWalk root cid = some (.found bm) ∧
            0 < bm.priceKr ∧ 0 < bm.weightValue := by
  refine ⟨fun elP chain fuel bm h => walkLoop_found_pos elP fuel chain bm h,
    fun root cid => ?_⟩
  cases h1 : findElem cid root with
  | none => left; simp [processOne, h1]
  | some el =>
    by_cases hp : el.processedOf
    · left; simp [processOne, h1, hp]
    · cases h2 : chainTo cid root with
      | none => left; simp [processOne, h1, h2, hp]
      | some chain =>
        cases h3 : walkLoop el chain 8 with
        | aborted => left; simp [processOne, h1, h2, h3, hp]
        | exhausted => left; simp [processOne, h1, h2, h3, hp]
        | found bm =>
          right
          exact ⟨bm, by unfold candidateWalk; rw [h1, h2]; exact congrArg some h3,
            walkLoop_found_pos el 8 chain bm h3⟩

/-- A block where the walk finds a validated pair: one price element with a
weight element beside it. -/
def okDiv : DNode :=
  .elem 2 "DIV" [] false [.text "5 kr", .elem 3 "DIV" [] false [.text "100 g"]]

def okBody : DNode := .elem 1 "BODY" [] false [okDiv]

unseal Rat.mul Rat.add Rat.inv in
theorem claim_C6_validation_guard_witness :
    walkLoop okDiv [okDiv, okBody] 8 = .found ⟨2, 2, 5, 100, "g"⟩ ∧
      (0 : ℚ) < 5 ∧ (0 : ℚ) < 100 :=
  ⟨by decide, claim_C6_validation_guard.1 okDiv [okDiv, okBody] 8 ⟨2, 2, 5, 100, "g"⟩ (by decide)⟩

/-! ### Matching is monotone under string extension

A string with a match keeps a match when text is appended on either side.
This backs the leaf-preference claim: the text of an element contains the
text of each descendant as a contiguous segment. -/

theorem takeDigits_eq (s : List Char) : (takeDigits s).1 ++ (takeDigits s).2 = s := by
  induction s with
  | nil => rfl
  | cons c cs ih =>
    by_cases hc : isDigitCh c
    · simp only [takeDigits, hc, if_pos, List.cons_append]
      rw [ih]
    · simp [takeDigits, hc]

theorem takeDigits_fst_all (s : List Char) : (takeDigits s).1.all isDigitCh = true := by
  induction s with
  | nil => rfl
  | cons c cs ih =>
    by_cases hc : isDigitCh c
    · simp [takeDigits, hc, ih]
    · simp [takeDigits, hc]

theorem takeDigits_snd_head (s : List Char) (c : Char) (cs : List Char)
    (h : (takeDigits s).2 = c :: cs) : isDigitCh c = false := by
  induction s with
  | nil => simp [takeDigits] at h
  | cons d ds ih =>
    by_cases hd : isDigitCh d
    · simp only [takeDigits, hd, if_pos] at h
      exact ih h
    · simp only [takeDigits, hd, if_neg] at h
      cases h
      simp [hd]

theorem takeDigits_fst_empty_head (d : Char) (r : List Char)
    (h : (takeDigits (d :: r)).1 = []) : isDigitCh d = false := by
  by_cases hd : isDigitCh d
  · simp [takeDigits, hd] at h
  · simp [hd]

theorem takeDigits_prepend (a : List Char) (c : Char) (t : List Char)
    (ha : a.all isDigitCh = true) (hc : isDigitCh c = false) :
    takeDigits (a ++ c :: t) = (a, c :: t) := by
  induction a with
  | nil => simp [takeDigits, hc]
  | cons d ds ih =>
    simp only [List.all_cons, Bool.and_eq_true] at ha
    simp [takeDigits, ha.1, ih ha.2]

theorem matchNumAt_canon_nosep (d1 : List Char) (hd1 : d1 ≠ [])
    (hall : d1.all isDigitCh = true) (c : Char) (hc : isDigitCh c = false)
    (hcsep : (decide (c = '.') || decide (c = ',')) = false) (t : List Char) :
    matchNumAt (d1 ++ c :: t) = some (d1, c :: t) := by
  simp only [matchNumAt, takeDigits_prepend d1 c t hall hc]
  rw [if_neg hd1, hcsep]
  rfl

theorem matchNumAt_canon_sep1 (d1 : List Char) (hd1 : d1 ≠ [])
    (hall : d1.all isDigitCh = true) (c : Char) (hc : isDigitCh c = false)
    (hcsep : (decide (c = '.') || decide (c = ',')) = true)
    (d : Char) (hd : isDigitCh d = false) (t : List Char) :
    matchNumAt (d1 ++ c :: d :: t) = some (d1, c :: d :: t) := by
  simp only [matchNumAt, takeDigits_prepend d1 c (d :: t) hall hc]
  rw [if_neg hd1, hcsep]
  simp [takeDigits, hd]

theorem matchNumAt_canon_sep2 (d1 : List Char) (hd1 : d1 ≠ [])
    (hall : d1.all isDigitCh = true) (c : Char) (hc : isDigitCh c = false)
    (hcsep : (decide (c = '.') || decide (c = ',')) = true)
    (q1 : List Char) (hq1 : q1 ≠ []) (hq1all : q1.all isDigitCh = true)
    (e : Char) (he : isDigitCh e = false) (t : List Char) :
    matchNumAt (d1 ++ c :: (q1 ++ e :: t)) = some (d1 ++ c :: q1, e :: t) := by
  simp only [matchNumAt, takeDigits_prepend d1 c (q1 ++ e :: t) hall hc]
  rw [if_neg hd1, hcsep]
  simp only [takeDigits_prepend q1 e t hq1all he]
  simp [hq1]

theorem matchNumAt_append (u post lit rest : List Char)
    (h : matchNumAt u = some (lit, rest)) (hne : rest ≠ [])
    (hsingle : ∀ c, rest = [c] → c ≠ '.' ∧ c ≠ ',') :
    matchNumAt (u ++ post) = some (lit, rest ++ post) := by
  have hu : (takeDigits u).1 ++ (takeDigits u).2 = u := takeDigits_eq u
  have hall : (takeDigits u).1.all isDigitCh = true := takeDigits_fst_all u
  unfold matchNumAt at h
  by_cases hd1 : (takeDigits u).1 = []
  · simp [hd1] at h
  · rw [if_neg hd1] at h
    cases hs1 : (takeDigits u).2 with
    | nil =>
      rw [hs1] at h
      try dsimp only [] at h
      simp only [Option.some.injEq, Prod.mk.injEq] at h
      exact absurd h.2.symm hne
    | cons c r2 =>
      have hcnd : isDigitCh c = false := takeDigits_snd_head u c r2 hs1
      rw [hs1] at h
      try dsimp only [] at h
      by_cases hsep : (decide (c = '.') || decide (c = ',')) = true
      · rw [if_pos hsep] at h
        by_cases hq : (takeDigits r2).1 = []
        · rw [if_pos hq] at h
          simp only [Option.some.injEq, Prod.mk.injEq] at h
          obtain ⟨hlit, hrest⟩ := h
          subst hlit
          subst hrest
          cases r2 with
          | nil =>
            exfalso
            have hsc := hsingle c rfl
            rcases Bool.or_eq_true _ _ |>.mp hsep with h' | h' <;> simp_all
          | cons d r3 =>
            have hdnd : isDigitCh d = false := takeDigits_fst_empty_head d r3 hq
            have hu' : u ++ post = (takeDigits u).1 ++ c :: d :: (r3 ++ post) := by
              conv_lhs => rw [← hu, hs1]
              simp
            rw [hu', matchNumAt_canon_sep1 _ hd1 hall c hcnd hsep d hdnd (r3 ++ post)]
            rfl
        · rw [if_neg hq] at h
          simp only [Option.some.injEq, Prod.mk.injEq] at h
          obtain ⟨hlit, hrest⟩ := h
          subst hlit
          subst hrest
          have hr2 : (takeDigits r2).1 ++ (takeDigits r2).2 = r2 := takeDigits_eq r2
          have hq1all : (takeDigits r2).1.all isDigitCh = true := takeDigits_fst_all r2
          cases hq2 : (takeDigits r2).2 with
          | nil => exact absurd hq2 hne
          | cons e r4 =>
            have hend : isDigitCh e = false := takeDigits_snd_head r2 e r4 hq2
            rw [hq2] at hr2
            have hu' : u ++ post =
                (takeDigits u).1 ++ c :: ((takeDigits r2).1 ++ e :: (r4 ++ post)) := by
              conv_lhs => rw [← hu, hs1, ← hr2]
              simp
            rw [hu', matchNumAt_canon_sep2 _ hd1 hall c hcnd hsep _ hq hq1all e hend
              (r4 ++ post)]
            rfl
      · rw [if_neg hsep] at h
        simp only [Option.some.injEq, Prod.mk.injEq] at h
        obtain ⟨hlit, hrest⟩ := h
        subst hlit
        subst hrest
        rw [Bool.not_eq_true] at hsep
        have hu' : u ++ post = (takeDigits u).1 ++ c :: (r2 ++ post) := by
          conv_lhs => rw [← hu, hs1]
          simp
        rw [hu', matchNumAt_canon_nosep _ hd1 hall c hcnd hsep (r2 ++ post)]
        rfl

theorem ciStarts_append (tok s post : List Char) (h : ciStarts tok s = true) :
    ciStarts tok (s ++ post) = true := by
  induction tok generalizing s with
  | nil => rfl
  | cons p ps ih =>
    cases s with
    | nil => exact absurd h (by simp [ciStarts])
    | cons c cs =>
      simp only [ciStarts, Bool.and_eq_true] at h ⊢
      exact ⟨h.1, ih cs h.2⟩

theorem tokenAt_nil (toks : List (List Char)) (h1 : ∀ tok ∈ toks, tok ≠ []) :
    tokenAt toks [] = none := by
  unfold tokenAt
  rw [List.find?_eq_none.mpr]
  · rfl
  · intro tok htok
    cases tok with
    | nil => exact absurd rfl (h1 [] htok)
    | cons p ps => simp [ciStarts]

theorem tokenAt_append_isSome (toks : List (List Char)) (s post : List Char)
    (h : (tokenAt toks s).isSome = true) : (tokenAt toks (s ++ post)).isSome = true := by
  unfold tokenAt at h ⊢
  cases hf : toks.find? fun tok => ciStarts tok s with
  | none => rw [hf] at h; simp at h
  | some tok =>
    have hmem : tok ∈ toks := List.mem_of_find?_eq_some hf
    have hst : ciStarts tok s = true := by simpa using List.find?_some hf
    have : (toks.find? fun tok => ciStarts tok (s ++ post)).isSome = true :=
      List.find?_isSome.mpr ⟨tok, hmem, ciStarts_append tok s post hst⟩
    cases hf2 : toks.find? fun tok => ciStarts tok (s ++ post) with
    | none => rw [hf2] at this; cases this
    | some tok2 => simp

theorem dropWhile_append_of_ne_nil (p : Char → Bool) (l post : List Char)
    (h : l.dropWhile p ≠ []) : (l ++ post).dropWhile p = l.dropWhile p ++ post := by
  induction l with
  | nil => exact absurd rfl h
  | cons c cs ih =>
    by_cases hc : p c
    · rw [List.cons_append, List.dropWhile_cons_of_pos hc, List.dropWhile_cons_of_pos hc]
      exact ih (by rwa [List.dropWhile_cons_of_pos hc] at h)
    · rw [List.cons_append, List.dropWhile_cons_of_neg hc, List.dropWhile_cons_of_neg hc,
        List.cons_append]

theorem matchAt_append (toks : List (List Char)) (h1 : ∀ tok ∈ toks, tok ≠ [])
    (h2 : tokenAt toks ['.'] = none) (h3 : tokenAt toks [','] = none)
    (u post : List Char) (h : (matchAt toks u).isSome = true) :
    (matchAt toks (u ++ post)).isSome = true := by
  unfold matchAt at h
  cases hnum : matchNumAt u with
  | none => rw [hnum] at h; dsimp only [] at h; cases h
  | some lr =>
    obtain ⟨lit, rest⟩ := lr
    rw [hnum] at h
    try dsimp only [] at h
    cases htok : tokenAt toks (rest.dropWhile isWsCh) with
    | none => rw [htok] at h; dsimp only [] at h; cases h
    | some t =>
      have hne : rest ≠ [] := by
        intro hrest
        rw [hrest] at htok
        rw [show (([] : List Char).dropWhile isWsCh) = [] from rfl] at htok
        rw [tokenAt_nil toks h1] at htok
        cases htok
      have hsingle : ∀ c, rest = [c] → c ≠ '.' ∧ c ≠ ',' := by
        intro c hc
        constructor <;> intro hcc <;> rw [hc, hcc] at htok
        · rw [show (['.'].dropWhile isWsCh) = ['.'] from rfl, h2] at htok; cases htok
        · rw [show ([','].dropWhile isWsCh) = [','] from rfl, h3] at htok; cases htok
      have hdw : rest.dropWhile isWsCh ≠ [] := by
        intro hdw
        rw [hdw, tokenAt_nil toks h1] at htok
        cases htok
      unfold matchAt
      rw [matchNumAt_append u post lit rest hnum hne hsingle]
      dsimp only []
      rw [dropWhile_append_of_ne_nil isWsCh rest post hdw]
      have hsome := tokenAt_append_isSome toks (rest.dropWhile isWsCh) post
        (by rw [htok]; rfl)
      cases htok2 : tokenAt toks (rest.dropWhile isWsCh ++ post) with
      | none => rw [htok2] at hsome; cases hsome
      | some t2 => simp

theorem scanMatch_append_right (toks : List (List Char)) (h1 : ∀ tok ∈ toks, tok ≠ [])
    (h2 : tokenAt toks ['.'] = none) (h3 : tokenAt toks [','] = none)
    (s post : List Char) (h : (scanMatch toks s).isSome = true) :
    (scanMatch toks (s ++ post)).isSome = true := by
  induction s with
  | nil => simp [scanMatch] at h
  | cons c cs ih =>
    rw [List.cons_append]
    unfold scanMatch at h ⊢
    cases hm : matchAt toks (c :: cs) with
    | some r =>
      have hbig := matchAt_append toks h1 h2 h3 (c :: cs) post (by rw [hm]; rfl)
      rw [List.cons_append] at hbig
      cases hm2 : matchAt toks (c :: (cs ++ post)) with
      | none => rw [hm2] at hbig; cases hbig
      | some r2 => simp
    | none =>
      rw [hm] at h
      try dsimp only [] at h
      cases hm2 : matchAt toks (c :: (cs ++ post)) with
      | none => dsimp only []; exact ih h
      | some r2 => simp

theorem scanMatch_append_left (toks : List (List Char)) (pre s : List Char)
    (h : (scanMatch toks s).isSome = true) :
    (scanMatch toks (pre ++ s)).isSome = true := by
  induction pre with
  | nil => exact h
  | cons c pre' ih =>
    rw [List.cons_append]
    unfold scanMatch
    cases hm : matchAt toks (c :: (pre' ++ s)) with
    | some r => simp
    | none => exact ih

theorem scanMatch_infix (toks : List (List Char)) (h1 : ∀ tok ∈ toks, tok ≠ [])
    (h2 : tokenAt toks ['.'] = none) (h3 : tokenAt toks [','] = none)
    (pre s post : List Char) (h : (scanMatch toks s).isSome = true) :
    (scanMatch toks (pre ++ s ++ post)).isSome = true := by
  rw [List.append_assoc]
  exact scanMatch_append_left toks pre (s ++ post)
    (scanMatch_append_right toks h1 h2 h3 s post h)

theorem priceTest_infix (pre s post : List Char)
    (h : priceTest { data := s } = true) :
    priceTest { data := pre ++ s ++ post } = true := by
  unfold priceTest priceMatch at h ⊢
  exact scanMatch_infix priceToks (by decide) (by decide) (by decide) pre s post h

/-! ### Claim C8: leaf preference -/

mutual

theorem textChars_of_desc (n d : DNode) (hd : d ∈ descElems n) :
    ∃ pre post, textChars n = pre ++ textChars d ++ post := by
  cases n with
  | text s => exact absurd hd (by simp [descElems])
  | elem i t cl p cs =>
    have := textChars_of_descList cs d (by simpa [descElems] using hd)
    simpa [textChars] using this

theorem textChars_of_descList (cs : List DNode) (d : DNode) (hd : d ∈ descElemsList cs) :
    ∃ pre post, textCharsList cs = pre ++ textChars d ++ post := by
  cases cs with
  | nil => exact absurd hd (by simp [descElemsList])
  | cons n ns =>
    rw [descElemsList.eq_def] at hd
    dsimp only [] at hd
    rw [List.mem_append, List.mem_append] at hd
    rcases hd with (hd | hd) | hd
    · have hdn : d = n := by
        cases n <;> simp_all
      subst hdn
      exact ⟨[], textCharsList ns, by rw [textCharsList]; rfl⟩
    · obtain ⟨pre, post, hpp⟩ := textChars_of_desc n d hd
      exact ⟨pre, post ++ textCharsList ns, by rw [textCharsList, hpp]; simp⟩
    · obtain ⟨pre, post, hpp⟩ := textChars_of_descList ns d hd
      exact ⟨textChars n ++ pre, post, by rw [textCharsList, hpp]; simp⟩

end

theorem child_priceTest_of_descList (cs : List DNode) (d : DNode)
    (hd : d ∈ descElemsList cs) (hp : priceTest (textContent d) = true) :
    ∃ c ∈ cs.filter DNode.isElem, priceTest (textContent c) = true := by
  induction cs with
  | nil => exact absurd hd (by simp [descElemsList])
  | cons n ns ih =>
    rw [descElemsList.eq_def] at hd
    dsimp only [] at hd
    rw [List.mem_append, List.mem_append] at hd
    rcases hd with (hd | hd) | hd
    · have hdn : d = n ∧ n.isElem = true := by
        cases n <;> simp_all [DNode.isElem]
      refine ⟨n, ?_, hdn.1 ▸ hp⟩
      simp [List.mem_filter, hdn.2]
    · have hne : n.isElem = true := by
        cases n with
        | text s => exact absurd hd (by simp [descElems])
        | elem _ _ _ _ _ => rfl
      obtain ⟨pre, post, hpp⟩ := textChars_of_desc n d hd
      refine ⟨n, by simp [List.mem_filter, hne], ?_⟩
      have : priceTest { data := pre ++ textChars d ++ post } = true :=
        priceTest_infix pre (textChars d) post hp
      rwa [show textContent n = { data := pre ++ textChars d ++ post } by
        unfold textContent; rw [hpp]]
    · obtain ⟨c, hc, hcp⟩ := ih hd
      refine ⟨c, ?_, hcp⟩
      rw [List.mem_filter] at hc ⊢
      exact ⟨List.mem_cons_of_mem n hc.1, hc.2⟩

/-- Claim C8: leaf preference.  An element whose text matches the price
pattern is excluded as a candidate as soon as any element descendant of it
has price-matching text — the code checks only direct children, but a match
inside a deeper descendant makes the child containing it match as well,
because text content is inherited upward as a contiguous segment.  In
particular, when a parent and a child both textually contain a price, the
parent is never a candidate. -/
theorem claim_C8_leaf_preference (root el d : DNode) (hd : d ∈ descElems el)
    (hp : priceTest (textContent d) = true) : isCandidate root el = false := by
  cases el with
  | text s => rfl
  | elem i t cl p cs =>
    obtain ⟨c, hc, hcp⟩ :=
      child_priceTest_of_descList cs d (by simpa [descElems] using hd) hp
    have hany : ((elemChildren (.elem i t cl p cs)).any
        fun ch => priceTest (textContent ch)) = true :=
      List.any_eq_true.mpr ⟨c, hc, hcp⟩
    simp [isCandidate, hany]

def c8inner : DNode := .elem 3 "SPAN" [] false [.text "12 kr"]

/-- A parent whose text contains a price both directly and through its
child. -/
def c8parent : DNode := .elem 2 "DIV" [] false [c8inner, .text " special offer"]

def c8body : DNode := .elem 1 "BODY" [] false [c8parent]

theorem claim_C8_leaf_preference_witness :
    c8inner ∈ descElems c8parent ∧ priceTest (textContent c8inner) = true ∧
      isCandidate c8body c8parent = false ∧ isCandidate c8body c8inner = true :=
  ⟨by simp [descElems, descElemsList, c8parent, c8inner],
    by decide,
    claim_C8_leaf_preference c8body c8parent c8inner
      (by simp [descElems, descElemsList, c8parent, c8inner]) (by decide),
    by decide⟩

/-! ### Claim C10: the annotation text is inert

The injected text "- ~X.XX / kg" (or "/ L") matches neither pattern:
every digit run is followed, after whitespace, by a slash or sits against a
dot or another digit, never against a unit or currency token. -/

/-- The head of this token can never match the subject character `c`. -/
def tokHeadFail (c : Char) : List Char → Bool
  | [] => false
  | p :: _ => !(ciEq p c)

theorem tokenAt_head_fail (toks : List (List Char)) (c : Char) (r : List Char)
    (h : ∀ tok ∈ toks, tokHeadFail c tok = true) : tokenAt toks (c :: r) = none := by
  unfold tokenAt
  rw [List.find?_eq_none.mpr]
  · rfl
  · intro tok htok
    have := h tok htok
    cases tok with
    | nil => simp [tokHeadFail] at this
    | cons p ps =>
      simp only [tokHeadFail, Bool.not_eq_true'] at this
      simp [ciStarts, this]

theorem matchAt_cons_nondigit (toks : List (List Char)) (c : Char) (s : List Char)
    (hc : isDigitCh c = false) : matchAt toks (c :: s) = none := by
  unfold matchAt matchNumAt
  simp [takeDigits, hc]

theorem matchAt_eq_none_of (toks : List (List Char)) (s l r : List Char)
    (h : matchNumAt s = some (l, r))
    (ht : tokenAt toks (r.dropWhile isWsCh) = none) : matchAt toks s = none := by
  unfold matchAt
  rw [h]
  try dsimp only []
  rw [ht]

theorem scanMatch_cons_none (toks : List (List Char)) (c : Char) (cs : List Char)
    (h : matchAt toks (c :: cs) = none) : scanMatch toks (c :: cs) = scanMatch toks cs := by
  conv_lhs => rw [scanMatch, h]

theorem scanMatch_skip (toks : List (List Char)) (c : Char) (cs : List Char)
    (hc : isDigitCh c = false) : scanMatch toks (c :: cs) = scanMatch toks cs :=
  scanMatch_cons_none toks c cs (matchAt_cons_nondigit toks c cs hc)

theorem scanMatch_all_nondigit (toks : List (List Char)) (l : List Char)
    (h : l.all (fun c => !isDigitCh c) = true) : scanMatch toks l = none := by
  induction l with
  | nil => rfl
  | cons c cs ih =>
    simp only [List.all_cons, Bool.and_eq_true, Bool.not_eq_true'] at h
    rw [scanMatch_skip toks c cs h.1]
    exact ih (by simp only [List.all_eq_true] at h ⊢; exact fun x hx => h.2 x hx)

/-- The tail of the annotation after the two decimal digits. -/
theorem dropWhile_slash (lab : List Char) :
    (' ' :: '/' :: ' ' :: lab).dropWhile isWsCh = '/' :: ' ' :: lab := rfl

theorem scanMatch_ann_core (toks : List (List Char))
    (hslash : ∀ tok ∈ toks, tokHeadFail '/' tok = true)
    (lab : List Char) (hlab : lab.all (fun c => !isDigitCh c) = true)
    (x y : Char) (hx : isDigitCh x = true) (hy : isDigitCh y = true) :
    ∀ ds : List Char, ds.all isDigitCh = true →
      scanMatch toks (ds ++ '.' :: x :: y :: ' ' :: '/' :: ' ' :: lab) = none := by
  have htail : scanMatch toks (' ' :: '/' :: ' ' :: lab) = none := by
    rw [scanMatch_skip toks ' ' _ (by decide), scanMatch_skip toks '/' _ (by decide),
      scanMatch_skip toks ' ' _ (by decide)]
    exact scanMatch_all_nondigit toks lab hlab
  have htok : tokenAt toks ('/' :: ' ' :: lab) = none :=
    tokenAt_head_fail toks '/' (' ' :: lab) hslash
  have hxy : scanMatch toks (x :: y :: ' ' :: '/' :: ' ' :: lab) = none := by
    have hm1 : matchNumAt (x :: y :: ' ' :: '/' :: ' ' :: lab) =
        some ([x, y], ' ' :: '/' :: ' ' :: lab) := by
      exact matchNumAt_canon_nosep [x, y] (by simp) (by simp [hx, hy]) ' ' (by decide)
        (by decide) ('/' :: ' ' :: lab)
    have hm2 : matchNumAt (y :: ' ' :: '/' :: ' ' :: lab) =
        some ([y], ' ' :: '/' :: ' ' :: lab) := by
      exact matchNumAt_canon_nosep [y] (by simp) (by simp [hy]) ' ' (by decide)
        (by decide) ('/' :: ' ' :: lab)
    rw [scanMatch_cons_none toks x _
      (matchAt_eq_none_of toks _ _ _ hm1 (by rw [dropWhile_slash, htok]))]
    rw [scanMatch_cons_none toks y _
      (matchAt_eq_none_of toks _ _ _ hm2 (by rw [dropWhile_slash, htok]))]
    exact htail
  intro ds hds
  induction ds with
  | nil =>
    rw [List.nil_append, scanMatch_skip toks '.' _ (by decide)]
    exact hxy
  | cons d ds' ih =>
    simp only [List.all_cons, Bool.and_eq_true] at hds
    have hm : matchNumAt (d :: (ds' ++ '.' :: x :: y :: ' ' :: '/' :: ' ' :: lab)) =
        some ((d :: ds') ++ '.' :: [x, y], ' ' :: '/' :: ' ' :: lab) := by
      exact matchNumAt_canon_sep2 (d :: ds') (by simp) (by simp [hds.1, hds.2]) '.'
        (by decide) (by decide) [x, y] (by simp) (by simp [hx, hy]) ' ' (by decide)
        ('/' :: ' ' :: lab)
    rw [List.cons_append]
    rw [scanMatch_cons_none toks d _
      (matchAt_eq_none_of toks _ _ _ hm (by rw [dropWhile_slash, htok]))]
    exact ih hds.2

theorem digitChar_isDigit (n : ℕ) (h : n < 10) : isDigitCh (digitChar n) = true := by
  interval_cases n <;> decide

theorem natCharsAux_all (fuel : ℕ) : ∀ n : ℕ, (natCharsAux fuel n).all isDigitCh = true := by
  induction fuel with
  | zero => intro n; rfl
  | succ f ih =>
    intro n
    unfold natCharsAux
    by_cases h : n < 10
    · simp [h, digitChar_isDigit n h]
    · simp [h, ih (n / 10), digitChar_isDigit (n % 10) (Nat.mod_lt n (by norm_num))]

theorem natChars_all (n : ℕ) : (natChars n).all isDigitCh = true := natCharsAux_all (n + 1) n

theorem natChars_ne_nil (n : ℕ) : natChars n ≠ [] := by
  unfold natChars natCharsAux
  by_cases h : n < 10 <;> simp [h]

theorem strData_append (a b : String) : (a ++ b).data = a.data ++ b.data := rfl

theorem toFixed2_data (q : ℚ) (h : 0 ≤ q) :
    (toFixed2 q).data =
      natChars ((Rat.floor (q * 100 + 1 / 2)).natAbs / 100) ++
        '.' :: [digitChar ((Rat.floor (q * 100 + 1 / 2)).natAbs / 10 % 10),
          digitChar ((Rat.floor (q * 100 + 1 / 2)).natAbs % 10)] := by
  have h0 : (0 : ℤ) ≤ Rat.floor (q * 100 + 1 / 2) := by
    rw [show ((0 : ℤ) ≤ Rat.floor (q * 100 + 1 / 2)) ↔
        (((0 : ℤ) : ℚ) ≤ q * 100 + 1 / 2) from Rat.le_floor]
    push_cast
    have : 0 ≤ q * 100 := mul_nonneg h (by norm_num)
    linarith
  simp only [toFixed2]
  rw [if_neg (not_lt.mpr h0)]
  simp [strData_append]

/-- The character list of the injected annotation text for rate `r` and
label `lab`. -/
theorem annotation_data (r : ℚ) (lab : String) :
    ("- " ++ ("~" ++ toFixed2 r ++ " / " ++ lab)).data =
      '-' :: ' ' :: '~' :: ((toFixed2 r).data ++ ' ' :: '/' :: ' ' :: lab.data) := by
  simp [strData_append]

theorem scanMatch_annotation_none (toks : List (List Char))
    (hslash : ∀ tok ∈ toks, tokHeadFail '/' tok = true)
    (lab : String) (hlab : lab.data.all (fun c => !isDigitCh c) = true)
    (r : ℚ) (hr : 0 ≤ r) :
    scanMatch toks ("- " ++ ("~" ++ toFixed2 r ++ " / " ++ lab)).data = none := by
  rw [annotation_data, toFixed2_data r hr]
  rw [scanMatch_skip toks '-' _ (by decide), scanMatch_skip toks ' ' _ (by decide),
    scanMatch_skip toks '~' _ (by decide)]
  rw [show (natChars ((Rat.floor (r * 100 + 1 / 2)).natAbs / 100) ++
      '.' :: [digitChar ((Rat.floor (r * 100 + 1 / 2)).natAbs / 10 % 10),
        digitChar ((Rat.floor (r * 100 + 1 / 2)).natAbs % 10)]) ++
      ' ' :: '/' :: ' ' :: lab.data =
    natChars ((Rat.floor (r * 100 + 1 / 2)).natAbs / 100) ++
      '.' :: digitChar ((Rat.floor (r * 100 + 1 / 2)).natAbs / 10 % 10) ::
        digitChar ((Rat.floor (r * 100 + 1 / 2)).natAbs % 10) ::
          ' ' :: '/' :: ' ' :: lab.data by simp]
  exact scanMatch_ann_core toks hslash lab.data hlab _ _
    (digitChar_isDigit _ (Nat.mod_lt _ (by norm_num)))
    (digitChar_isDigit _ (Nat.mod_lt _ (by norm_num)))
    _ (natChars_all _)

/-- Claim C10: output stability.  For every positive price and weight and
every unit the engine handles, the injected annotation text matches neither
the price pattern nor the weight pattern, so the engine output can never be
re-recognized as a price candidate or as a weight match in a later pass. -/
theorem claim_C10_output_inert (p w : ℚ) (hp : 0 < p) (hw : 0 < w) :
    ∀ unit ∈ (["g", "kg", "l", "ml"] : List String),
      priceTest ("- " ++ calculateAndFormatUnit p w unit) = false ∧
        weightTest ("- " ++ calculateAndFormatUnit p w unit) = false := by
  have hr1 : (0 : ℚ) ≤ p / w * 1000 := by positivity
  have hr2 : (0 : ℚ) ≤ p / w := by positivity
  intro unit hunit
  have key : ∀ (r : ℚ), 0 ≤ r → ∀ lab : String,
      lab.data.all (fun c => !isDigitCh c) = true →
      priceTest ("- " ++ ("~" ++ toFixed2 r ++ " / " ++ lab)) = false ∧
        weightTest ("- " ++ ("~" ++ toFixed2 r ++ " / " ++ lab)) = false := by
    intro r hr lab hlab
    constructor
    · unfold priceTest priceMatch
      rw [scanMatch_annotation_none priceToks (by decide) lab hlab r hr]
      rfl
    · unfold weightTest weightMatch
      rw [scanMatch_annotation_none weightToks (by decide) lab hlab r hr]
      rfl
  simp only [List.mem_cons, List.mem_singleton, List.not_mem_nil, or_false] at hunit
  rcases hunit with h | h | h | h
  · subst h; rw [calcFormat_g]; exact key _ hr1 "kg" (by decide)
  · subst h; rw [calcFormat_kg]; exact key _ hr2 "kg" (by decide)
  · subst h; rw [calcFormat_l]; exact key _ hr2 "L" (by decide)
  · subst h; rw [calcFormat_ml]; exact key _ hr1 "L" (by decide)

unseal Rat.mul Rat.add Rat.inv in
theorem claim_C10_output_inert_witness :
    (0 : ℚ) < 20 ∧ (0 : ℚ) < 40 ∧
      priceTest ("- " ++ calculateAndFormatUnit 20 40 "g") = false ∧
      weightTest ("- " ++ calculateAndFormatUnit 20 40 "g") = false :=
  ⟨by decide, by decide,
    (claim_C10_output_inert 20 40 (by decide) (by decide) "g" (by simp)).1,
    (claim_C10_output_inert 20 40 (by decide) (by decide) "g" (by simp)).2⟩

/-! ### Structural lemmas: marks persist, identities persist

These back the append-once claim (C3) and the reentrancy claim (C9): the
processed marker, once set on an identity, survives every later tree
operation the engine performs. -/

mutual

theorem findElem_setProcessed (i k : ℕ) (t : DNode) :
    findElem i (setProcessed k t) = (findElem i t).map (setProcessed k) := by
  cases t with
  | text s => rfl
  | elem j tg cl p cs =>
    by_cases hj : j = i
    · simp [findElem, setProcessed, hj]
    · simp only [findElem, setProcessed]
      rw [if_neg hj, if_neg hj]
      exact findElemList_setProcessed i k cs

theorem findElemList_setProcessed (i k : ℕ) (cs : List DNode) :
    findElemList i (setProcessedList k cs) = (findElemList i cs).map (setProcessed k) := by
  cases cs with
  | nil => rfl
  | cons n ns =>
    simp only [findElemList, setProcessedList]
    rw [findElem_setProcessed i k n]
    cases h : findElem i n with
    | some r => simp
    | none => simp only [Option.map_none]; exact findElemList_setProcessed i k ns

end

mutual

theorem findElem_some_spec (i : ℕ) (t : DNode) (n : DNode)
    (h : findElem i t = some n) : n.isElem = true ∧ n.idOf = i := by
  cases t with
  | text s => exact absurd h (by simp [findElem])
  | elem j tg cl p cs =>
    by_cases hj : j = i
    · rw [findElem, if_pos hj] at h
      cases h
      exact ⟨rfl, hj⟩
    · rw [findElem, if_neg hj] at h
      exact findElemList_some_spec i cs n h

theorem findElemList_some_spec (i : ℕ) (cs : List DNode) (n : DNode)
    (h : findElemList i cs = some n) : n.isElem = true ∧ n.idOf = i := by
  cases cs with
  | nil => exact absurd h (by simp [findElemList])
  | cons m ms =>
    rw [findElemList] at h
    cases hm : findElem i m with
    | some r =>
      rw [hm] at h
      cases h
      exact findElem_some_spec i m _ hm
    | none =>
      rw [hm] at h
      exact findElemList_some_spec i ms n h

end

mutual

theorem findElem_isSome_iff (i : ℕ) (t : DNode) :
    (findElem i t).isSome = true ↔ i ∈ nodeIds t := by
  cases t with
  | text s => simp [findElem, nodeIds]
  | elem j tg cl p cs =>
    by_cases hj : j = i
    · simp [findElem, nodeIds, hj]
    · rw [findElem, if_neg hj, nodeIds]
      rw [List.mem_cons]
      constructor
      · intro h
        right
        exact (findElemList_isSome_iff i cs).mp h
      · intro h
        rcases h with h | h
        · exact absurd h.symm hj
        · exact (findElemList_isSome_iff i cs).mpr h

theorem findElemList_isSome_iff (i : ℕ) (cs : List DNode) :
    (findElemList i cs).isSome = true ↔ i ∈ nodeIdsList cs := by
  cases cs with
  | nil => simp [findElemList, nodeIdsList]
  | cons m ms =>
    rw [findElemList, nodeIdsList, List.mem_append]
    cases hm : findElem i m with
    | some r =>
      simp only [Option.isSome_some, true_iff]
      left
      exact (findElem_isSome_iff i m).mp (by rw [hm]; rfl)
    | none =>
      rw [findElemList_isSome_iff i ms]
      constructor
      · intro h; right; exact h
      · intro h
        rcases h with h | h
        · exact absurd ((findElem_isSome_iff i m).mpr h) (by rw [hm]; simp)
        · exact h

end

mutual

theorem findElem_none_of_not_mem (i : ℕ) (t : DNode) (h : i ∉ nodeIds t) :
    findElem i t = none := by
  cases hf : findElem i t with
  | none => rfl
  | some n =>
    exact absurd ((findElem_isSome_iff i t).mp (by simp [hf])) h

theorem findElemList_none_of_not_mem (i : ℕ) (cs : List DNode) (h : i ∉ nodeIdsList cs) :
    findElemList i cs = none := by
  cases hf : findElemList i cs with
  | none => rfl
  | some n =>
    exact absurd ((findElemList_isSome_iff i cs).mp (by simp [hf])) h

end

theorem findElemList_cons (i : ℕ) (n : DNode) (ns : List DNode) :
    findElemList i (n :: ns) =
      match findElem i n with
      | some r => some r
      | none => findElemList i ns := rfl

mutual

theorem findElem_insertAfterId (i k : ℕ) (nn : DNode) (hnn : i ∉ nodeIds nn) (t : DNode) :
    findElem i (insertAfterId k nn t) = (findElem i t).map (insertAfterId k nn) := by
  cases t with
  | text s => rfl
  | elem j tg cl p cs =>
    by_cases hj : j = i
    · simp [findElem, insertAfterId, hj]
    · simp only [findElem, insertAfterId]
      rw [if_neg hj, if_neg hj]
      exact findElemList_insertAfterId i k nn hnn cs

theorem findElemList_insertAfterId (i k : ℕ) (nn : DNode) (hnn : i ∉ nodeIds nn)
    (cs : List DNode) :
    findElemList i (insertAfterIdList k nn cs) = (findElemList i cs).map (insertAfterId k nn) := by
  cases cs with
  | nil => rfl
  | cons m ms =>
    have hrec := findElemList_insertAfterId i k nn hnn ms
    rw [insertAfterIdList]
    by_cases hk : m.isElem && m.idOf = k
    · rw [if_pos hk, findElemList_cons, findElemList_cons i m ms,
        findElem_insertAfterId i k nn hnn m]
      cases hm : findElem i m with
      | some r => simp
      | none =>
        simp only [Option.map_none]
        rw [findElemList_cons, findElem_none_of_not_mem i nn hnn]
        simpa using hrec
    · rw [if_neg hk, findElemList_cons, findElemList_cons i m ms,
        findElem_insertAfterId i k nn hnn m]
      cases hm : findElem i m with
      | some r => simp
      | none => simpa using hrec

end

theorem processedOf_setProcessed (k : ℕ) (n : DNode) :
    (setProcessed k n).processedOf =
      (if n.idOf = k ∧ n.isElem = true then true else n.processedOf) := by
  cases n with
  | text s => simp [setProcessed, DNode.processedOf, DNode.isElem]
  | elem j tg cl p cs =>
    simp only [setProcessed, DNode.processedOf, DNode.idOf, DNode.isElem]
    by_cases hj : j = k <;> simp [hj]

theorem processedOf_insertAfterId (k : ℕ) (nn : DNode) (n : DNode) :
    (insertAfterId k nn n).processedOf = n.processedOf := by
  cases n <;> rfl

theorem getProcessed_setProcessed (i k : ℕ) (t : DNode) :
    getProcessed i (setProcessed k t) =
      (getProcessed i t).map (fun b => if i = k then true else b) := by
  unfold getProcessed
  rw [findElem_setProcessed]
  cases h : findElem i t with
  | none => rfl
  | some n =>
    obtain ⟨he, hid⟩ := findElem_some_spec i t n h
    simp only [Option.map_some']
    congr 1
    rw [processedOf_setProcessed, hid]
    by_cases hik : i = k <;> simp [hik, he]

theorem getProcessed_insertAfterId (i k : ℕ) (nn : DNode) (hnn : i ∉ nodeIds nn)
    (t : DNode) : getProcessed i (insertAfterId k nn t) = getProcessed i t := by
  unfold getProcessed
  rw [findElem_insertAfterId i k nn hnn]
  cases h : findElem i t with
  | none => rfl
  | some n =>
    simp only [Option.map_some']
    rw [processedOf_insertAfterId]

theorem getProcessed_setProcessed_true (i k : ℕ) (t : DNode)
    (h : getProcessed i t = some true) :
    getProcessed i (setProcessed k t) = some true := by
  rw [getProcessed_setProcessed, h]
  by_cases hik : i = k <;> simp [hik]

theorem getProcessed_setProcessed_self (i : ℕ) (t : DNode)
    (h : (getProcessed i t).isSome = true) :
    getProcessed i (setProcessed i t) = some true := by
  rw [getProcessed_setProcessed]
  cases hg : getProcessed i t with
  | none => rw [hg] at h; cases h
  | some b => simp

theorem getProcessed_isSome_iff (i : ℕ) (t : DNode) :
    (getProcessed i t).isSome = true ↔ i ∈ nodeIds t := by
  rw [← findElem_isSome_iff i t]
  unfold getProcessed
  cases findElem i t <;> simp

theorem le_foldr_max (i : ℕ) (l : List ℕ) (h : i ∈ l) : i ≤ l.foldr max 0 := by
  induction l with
  | nil => cases h
  | cons a as ih =>
    rcases List.mem_cons.mp h with h | h
    · subst h; exact le_max_left _ _
    · exact le_trans (ih h) (le_max_right _ _)

theorem lt_freshId (i : ℕ) (t : DNode) (h : i ∈ nodeIds t) : i < freshId t := by
  unfold freshId
  have := le_foldr_max i (nodeIds t) h
  omega

theorem freshId_not_mem (t : DNode) : freshId t ∉ nodeIds t := by
  intro h
  exact absurd (lt_freshId _ t h) (by omega)

mutual

theorem nodeIds_setProcessed (k : ℕ) (t : DNode) :
    nodeIds (setProcessed k t) = nodeIds t := by
  cases t with
  | text s => rfl
  | elem j tg cl p cs =>
    simp only [setProcessed, nodeIds]
    rw [nodeIdsList_setProcessed k cs]

theorem nodeIdsList_setProcessed (k : ℕ) (cs : List DNode) :
    nodeIdsList (setProcessedList k cs) = nodeIdsList cs := by
  cases cs with
  | nil => rfl
  | cons m ms =>
    simp only [setProcessedList, nodeIdsList]
    rw [nodeIds_setProcessed k m, nodeIdsList_setProcessed k ms]

end

mutual

theorem mem_nodeIds_insertAfterId (i k : ℕ) (nn : DNode) (t : DNode)
    (h : i ∈ nodeIds t) : i ∈ nodeIds (insertAfterId k nn t) := by
  cases t with
  | text s => simp [nodeIds] at h
  | elem j tg cl p cs =>
    simp only [nodeIds, List.mem_cons] at h
    simp only [insertAfterId, nodeIds, List.mem_cons]
    rcases h with h | h
    · left; exact h
    · right; exact mem_nodeIdsList_insertAfterId i k nn cs h

theorem mem_nodeIdsList_insertAfterId (i k : ℕ) (nn : DNode) (cs : List DNode)
    (h : i ∈ nodeIdsList cs) : i ∈ nodeIdsList (insertAfterIdList k nn cs) := by
  cases cs with
  | nil => simp [nodeIdsList] at h
  | cons m ms =>
    simp only [nodeIdsList, List.mem_append] at h
    rw [insertAfterIdList]
    by_cases hk : m.isElem && m.idOf = k
    · rw [if_pos hk]
      simp only [nodeIdsList, List.mem_append]
      rcases h with h | h
      · left; exact mem_nodeIds_insertAfterId i k nn m h
      · right; right; exact mem_nodeIdsList_insertAfterId i k nn ms h
    · rw [if_neg hk]
      simp only [nodeIdsList, List.mem_append]
      rcases h with h | h
      · left; exact mem_nodeIds_insertAfterId i k nn m h
      · right; exact mem_nodeIdsList_insertAfterId i k nn ms h

end

/-! ### Engine-level lemmas for claims C3 and C9 -/

theorem walkLoop_found_spec (elP : DNode) :
    ∀ (fuel : ℕ) (chain : List DNode) (bm : BestMatch),
      walkLoop elP chain fuel = .found bm →
      bm.elPrice = elP.idOf ∧ ∃ c ∈ chain, c.idOf = bm.container ∧ c.processedOf = false := by
  intro fuel
  induction fuel with
  | zero =>
    intro chain bm h
    rw [walkLoop_zero] at h
    exact WalkResult.noConfusion h
  | succ n ih =>
    intro chain bm h
    cases chain with
    | nil =>
      rw [walkLoop_nil] at h
      exact WalkResult.noConfusion h
    | cons c rest =>
      simp only [walkLoop] at h
      split at h
      · exact WalkResult.noConfusion h
      · rename_i hp
        have hpf : c.processedOf = false := Bool.eq_false_iff.mpr hp
        split at h
        · obtain ⟨h1, c', hc', h2, h3⟩ := ih rest bm h
          exact ⟨h1, c', List.mem_cons_of_mem _ hc', h2, h3⟩
        · split at h
          · split at h
            · split at h
              · cases h
                exact ⟨rfl, c, List.mem_cons_self _ _, rfl, hpf⟩
              · obtain ⟨h1, c', hc', h2, h3⟩ := ih rest bm h
                exact ⟨h1, c', List.mem_cons_of_mem _ hc', h2, h3⟩
            · obtain ⟨h1, c', hc', h2, h3⟩ := ih rest bm h
              exact ⟨h1, c', List.mem_cons_of_mem _ hc', h2, h3⟩
          · obtain ⟨h1, c', hc', h2, h3⟩ := ih rest bm h
            exact ⟨h1, c', List.mem_cons_of_mem _ hc', h2, h3⟩

mutual

theorem chainTo_mem_ids (i : ℕ) (t : DNode) (l : List DNode)
    (h : chainTo i t = some l) : ∀ n ∈ l, n.idOf ∈ nodeIds t := by
  cases t with
  | text s => exact absurd h (by simp [chainTo])
  | elem j tg cl p cs =>
    by_cases hj : j = i
    · rw [chainTo, if_pos hj] at h
      cases h
      intro n hn
      rw [List.mem_singleton] at hn
      subst hn
      simp [nodeIds, DNode.idOf]
    · rw [chainTo, if_neg hj] at h
      cases hcl : chainToList i cs with
      | none => rw [hcl] at h; exact absurd h (by simp)
      | some l' =>
        rw [hcl] at h
        simp only [Option.some.injEq] at h
        subst h
        intro n hn
        rw [List.mem_append] at hn
        rcases hn with hn | hn
        · simp only [nodeIds, List.mem_cons]
          right
          exact chainToList_mem_ids i cs l' hcl n hn
        · rw [List.mem_singleton] at hn
          subst hn
          simp [nodeIds, DNode.idOf]

theorem chainToList_mem_ids (i : ℕ) (cs : List DNode) (l : List DNode)
    (h : chainToList i cs = some l) : ∀ n ∈ l, n.idOf ∈ nodeIdsList cs := by
  cases cs with
  | nil => exact absurd h (by simp [chainToList])
  | cons m ms =>
    rw [chainToList] at h
    cases hm : chainTo i m with
    | some lm =>
      rw [hm] at h
      cases h
      intro n hn
      rw [nodeIdsList, List.mem_append]
      left
      exact chainTo_mem_ids i m _ hm n hn
    | none =>
      rw [hm] at h
      intro n hn
      rw [nodeIdsList, List.mem_append]
      right
      exact chainToList_mem_ids i ms l h n hn

end

theorem processProductBlockEv_fst (t : DNode) (bm : BestMatch) :
    (processProductBlockEv t bm).1 = processProductBlock t bm := by
  simp only [processProductBlockEv, processProductBlock]
  split
  · rfl
  · split
    · rfl
    · split
      · rfl
      · rfl

theorem processOneEv_fst (root : DNode) (c : ℕ) :
    (processOneEv root c).1 = processOne root c := by
  simp only [processOneEv, processOne]
  split
  · rfl
  · split
    · rfl
    · split
      · rfl
      · split
        · split
          · rfl
          · exact processProductBlockEv_fst _ _
        · rfl

theorem runPass_fst : ∀ (cs : List ℕ) (root : DNode),
    (runPass root cs).1 = cs.foldl processOne root := by
  intro cs
  induction cs with
  | nil => intro root; rfl
  | cons c cs' ih =>
    intro root
    simp only [runPass, List.foldl_cons]
    rw [ih, processOneEv_fst]

theorem findAndProcessPricesEv_fst (root : DNode) :
    (findAndProcessPricesEv root).1 = findAndProcessPrices root :=
  runPass_fst (candidateIds root) root

theorem passesEv_fst : ∀ (n : ℕ) (root : DNode), (passesEv n root).1 = passes n root := by
  intro n
  induction n with
  | zero => intro root; rfl
  | succ n ih =>
    intro root
    simp only [passesEv, passes]
    rw [ih, findAndProcessPricesEv_fst]

theorem nodeIds_span (f : ℕ) (s : String) (cl : List String) (b : Bool) :
    nodeIds (.elem f "SPAN" cl b [.text s]) = [f] := rfl

theorem processProductBlock_marked (t : DNode) (bm : BestMatch) (X : ℕ)
    (h : getProcessed X t = some true) :
    getProcessed X (processProductBlock t bm) = some true := by
  have h1 : getProcessed X (setProcessed bm.elPrice t) = some true :=
    getProcessed_setProcessed_true X bm.elPrice t h
  have hmem : X ∈ nodeIds (setProcessed bm.elPrice t) :=
    (getProcessed_isSome_iff X _).mp (by rw [h1]; rfl)
  have hfresh : X ≠ freshId (setProcessed bm.elPrice t) := by
    intro hX
    rw [hX] at hmem
    exact freshId_not_mem _ hmem
  simp only [processProductBlock]
  split
  · exact h1
  · split
    · exact h1
    · split
      · exact h1
      · rw [getProcessed_insertAfterId X bm.elPrice _ (by rw [nodeIds_span]; simpa using hfresh) _]
        exact h1

theorem processOne_marked (root : DNode) (c X : ℕ)
    (h : getProcessed X root = some true) :
    getProcessed X (processOne root c) = some true := by
  simp only [processOne]
  split
  · exact h
  · split
    · exact h
    · split
      · exact h
      · split
        · split
          · exact h
          · exact processProductBlock_marked _ _ X (getProcessed_setProcessed_true X _ root h)
        · exact h

theorem processOneEv_of_marked (root : DNode) (c : ℕ)
    (h : getProcessed c root = some true) : processOneEv root c = (root, none, false) := by
  unfold getProcessed at h
  cases hf : findElem c root with
  | none => rw [hf] at h; cases h
  | some el =>
    rw [hf] at h
    simp only [Option.map_some', Option.some.injEq] at h
    unfold processOneEv
    rw [hf]
    try dsimp only []
    rw [if_pos h]

theorem processProductBlockEv_insert (t : DNode) (bm : BestMatch)
    (h : (processProductBlockEv t bm).2 = true) :
    getProcessed bm.elPrice (processProductBlockEv t bm).1 = some true := by
  simp only [processProductBlockEv] at h ⊢
  split at h
  · cases h
  · rename_i hroot
    split at h
    · cases h
    · rename_i el hel
      split at h
      · cases h
      · rename_i hdup
        have hsome : getProcessed bm.elPrice (setProcessed bm.elPrice t) = some true := by
          have hs : (findElem bm.elPrice (setProcessed bm.elPrice t)).isSome = true := by
            rw [hel]; rfl
          have hmem : bm.elPrice ∈ nodeIds (setProcessed bm.elPrice t) :=
            (findElem_isSome_iff _ _).mp hs
          rw [nodeIds_setProcessed] at hmem
          have hs2 : (getProcessed bm.elPrice t).isSome = true :=
            (getProcessed_isSome_iff _ _).mpr hmem
          exact getProcessed_setProcessed_self _ _ hs2
        have hmem2 : bm.elPrice ∈ nodeIds (setProcessed bm.elPrice t) :=
          (getProcessed_isSome_iff _ _).mp (by rw [hsome]; rfl)
        have hlt := lt_freshId _ _ hmem2
        have hfresh : bm.elPrice ≠ freshId (setProcessed bm.elPrice t) := by omega
        rw [if_neg hroot, if_neg hdup]
        rw [getProcessed_insertAfterId _ bm.elPrice _
          (by rw [nodeIds_span]; simpa using hfresh) _]
        exact hsome

theorem processOneEv_bm_spec (root : DNode) (c : ℕ) (bm : BestMatch)
    (h : (processOneEv root c).2.1 = some bm) :
    getProcessed c root = some false ∧ bm.elPrice = c ∧
      getProcessed bm.container root = some false ∧
      (processOneEv root c).1 = processProductBlock (setProcessed bm.container root) bm ∧
      getProcessed bm.container (processOneEv root c).1 = some true := by
  cases hf : findElem c root with
  | none => simp [processOneEv, hf] at h
  | some el =>
    by_cases hp : el.processedOf
    · simp [processOneEv, hf, hp] at h
    · cases hch : chainTo c root with
      | none => simp [processOneEv, hf, hp, hch] at h
      | some chain =>
        cases hw : walkLoop el chain 8 with
        | aborted => simp [processOneEv, hf, hp, hch, hw] at h
        | exhausted => simp [processOneEv, hf, hp, hch, hw] at h
        | found bm' =>
          by_cases hgp : getProcessed bm'.container root = some true
          · simp [processOneEv, hf, hp, hch, hw, hgp] at h
          · have heq : processOneEv root c =
                ((processProductBlockEv (setProcessed bm'.container root) bm').1, some bm',
                  (processProductBlockEv (setProcessed bm'.container root) bm').2) := by
              simp [processOneEv, hf, hp, hch, hw, hgp]
            have hbm : bm' = bm := by
              rw [heq] at h
              simpa using h
            subst hbm
            obtain ⟨hel, cnode, hcm, hcid, -⟩ := walkLoop_found_spec el 8 chain bm' hw
            obtain ⟨-, hfid⟩ := findElem_some_spec c root el hf
            have hcmem : bm'.container ∈ nodeIds root := by
              rw [← hcid]
              exact chainTo_mem_ids c root chain hch cnode hcm
            have hcsome : (getProcessed bm'.container root).isSome = true :=
              (getProcessed_isSome_iff _ _).mpr hcmem
            have hcfalse : getProcessed bm'.container root = some false := by
              cases hcv : getProcessed bm'.container root with
              | none => rw [hcv] at hcsome; cases hcsome
              | some b =>
                cases b with
                | true => exact absurd hcv hgp
                | false => rfl
            refine ⟨?_, ?_, hcfalse, ?_, ?_⟩
            · unfold getProcessed
              rw [hf]
              simp [Bool.eq_false_iff.mpr hp]
            · rw [hel, hfid]
            · rw [heq]
              exact processProductBlockEv_fst _ _
            · rw [heq]
              have hset : getProcessed bm'.container
                  (setProcessed bm'.container root) = some true :=
                getProcessed_setProcessed_self _ _ (by rw [hcfalse]; rfl)
              have := processProductBlock_marked (setProcessed bm'.container root) bm'
                bm'.container hset
              rw [← processProductBlockEv_fst] at this
              exact this

theorem processOneEv_insert (root : DNode) (c : ℕ)
    (h : (processOneEv root c).2.2 = true) :
    getProcessed c root = some false ∧
      getProcessed c (processOneEv root c).1 = some true := by
  cases hf : findElem c root with
  | none => simp [processOneEv, hf] at h
  | some el =>
    by_cases hp : el.processedOf
    · simp [processOneEv, hf, hp] at h
    · cases hch : chainTo c root with
      | none => simp [processOneEv, hf, hp, hch] at h
      | some chain =>
        cases hw : walkLoop el chain 8 with
        | aborted => simp [processOneEv, hf, hp, hch, hw] at h
        | exhausted => simp [processOneEv, hf, hp, hch, hw] at h
        | found bm' =>
          by_cases hgp : getProcessed bm'.container root = some true
          · simp [processOneEv, hf, hp, hch, hw, hgp] at h
          · have heq : processOneEv root c =
                ((processProductBlockEv (setProcessed bm'.container root) bm').1, some bm',
                  (processProductBlockEv (setProcessed bm'.container root) bm').2) := by
              simp [processOneEv, hf, hp, hch, hw, hgp]
            obtain ⟨hel, -⟩ := walkLoop_found_spec el 8 chain bm' hw
            obtain ⟨-, hfid⟩ := findElem_some_spec c root el hf
            have hpc : bm'.elPrice = c := by rw [hel, hfid]
            constructor
            · unfold getProcessed
              rw [hf]
              simp [Bool.eq_false_iff.mpr hp]
            · rw [heq] at h ⊢
              have := processProductBlockEv_insert (setProcessed bm'.container root) bm'
                (by simpa using h)
              rw [hpc] at this
              simpa using this

/-! ### Pass-level lemmas: at most one insertion per price element -/

theorem runPass_marked (X : ℕ) :
    ∀ (cs : List ℕ) (root : DNode), getProcessed X root = some true →
      getProcessed X (runPass root cs).1 = some true ∧
        X ∉ (runPass root cs).2.2 ∧
        ∀ bm ∈ (runPass root cs).2.1, bm.container ≠ X := by
  intro cs
  induction cs with
  | nil =>
    intro root h
    exact ⟨h, by simp [runPass], by simp [runPass]⟩
  | cons c cs' ih =>
    intro root h
    have hr1 : getProcessed X (processOneEv root c).1 = some true := by
      rw [processOneEv_fst]
      exact processOne_marked root c X h
    obtain ⟨ha, hb, hc⟩ := ih (processOneEv root c).1 hr1
    refine ⟨by simp only [runPass]; exact ha, ?_, ?_⟩
    · simp only [runPass]
      intro hmem
      rw [List.mem_append] at hmem
      rcases hmem with hmem | hmem
      · split at hmem
        · rename_i hev
          rw [List.mem_singleton] at hmem
          subst hmem
          rw [processOneEv_of_marked root X h] at hev
          cases hev
        · cases hmem
      · exact hb hmem
    · simp only [runPass]
      intro bm hmem
      rw [List.mem_append] at hmem
      rcases hmem with hmem | hmem
      · rw [Option.mem_toList, Option.mem_def] at hmem
        obtain ⟨-, -, hcf, -, -⟩ := processOneEv_bm_spec root c bm hmem
        intro hcx
        rw [hcx] at hcf
        rw [hcf] at h
        cases h
      · exact hc bm hmem

theorem runPass_count (X : ℕ) :
    ∀ (cs : List ℕ) (root : DNode),
      List.count X (runPass root cs).2.2 ≤ 1 ∧
        (X ∈ (runPass root cs).2.2 → getProcessed X (runPass root cs).1 = some true) := by
  intro cs
  induction cs with
  | nil =>
    intro root
    refine ⟨by simp [runPass], ?_⟩
    intro h
    simp [runPass] at h
  | cons c cs' ih =>
    intro root
    obtain ⟨ih1, ih2⟩ := ih (processOneEv root c).1
    by_cases hev : (processOneEv root c).2.2 = true
    · by_cases hcx : c = X
      · subst hcx
        obtain ⟨-, hafter⟩ := processOneEv_insert root c hev
        obtain ⟨hm1, hm2, -⟩ := runPass_marked c cs' (processOneEv root c).1 hafter
        constructor
        · simp only [runPass, hev, if_pos]
          rw [List.count_append, List.count_eq_zero.mpr hm2]
          simp [List.count_singleton]
        · intro _
          simp only [runPass]
          exact hm1
      · constructor
        · simp only [runPass, hev, if_pos]
          rw [List.count_append]
          have : List.count X [c] = 0 := by
            rw [List.count_eq_zero]
            simp
            exact fun hx => hcx hx.symm
          omega
        · intro hmem
          simp only [runPass, hev, if_pos] at hmem
          rw [List.mem_append] at hmem
          rcases hmem with hmem | hmem
          · rw [List.mem_singleton] at hmem
            exact absurd hmem.symm hcx
          · simp only [runPass]
            exact ih2 hmem
    · have hev' : (processOneEv root c).2.2 = false := Bool.eq_false_iff.mpr hev
      constructor
      · simp only [runPass, hev', Bool.false_eq_true, if_false, List.nil_append]
        exact ih1
      · intro hmem
        simp only [runPass, hev', Bool.false_eq_true, if_false, List.nil_append] at hmem ⊢
        exact ih2 hmem

theorem runPass_containers_nodup :
    ∀ (cs : List ℕ) (root : DNode),
      (((runPass root cs).2.1).map (fun b => b.container)).Nodup := by
  intro cs
  induction cs with
  | nil => intro root; simp [runPass]
  | cons c cs' ih =>
    intro root
    simp only [runPass]
    cases hbm : (processOneEv root c).2.1 with
    | none =>
      simp only [Option.toList_none, List.nil_append]
      exact ih _
    | some bm =>
      obtain ⟨-, -, -, -, hafter⟩ := processOneEv_bm_spec root c bm hbm
      obtain ⟨-, -, hnocont⟩ := runPass_marked bm.container cs' (processOneEv root c).1 hafter
      simp only [Option.toList_some, List.singleton_append, List.map_cons, List.nodup_cons]
      constructor
      · intro hmem
        rw [List.mem_map] at hmem
        obtain ⟨bm', hbm', heq⟩ := hmem
        exact hnocont bm' hbm' heq
      · exact ih _

theorem passesEv_marked (X : ℕ) :
    ∀ (n : ℕ) (root : DNode), getProcessed X root = some true →
      X ∉ (passesEv n root).2 := by
  intro n
  induction n with
  | zero =>
    intro root h
    simp [passesEv]
  | succ n ih =>
    intro root h
    simp only [passesEv]
    obtain ⟨ha, hb, -⟩ := runPass_marked X (candidateIds root) root h
    intro hmem
    rw [List.mem_append] at hmem
    rcases hmem with hmem | hmem
    · exact hb hmem
    · exact ih (findAndProcessPricesEv root).1 ha hmem

theorem passesEv_count_le_one (X : ℕ) :
    ∀ (n : ℕ) (root : DNode), List.count X (passesEv n root).2 ≤ 1 := by
  intro n
  induction n with
  | zero => intro root; simp [passesEv]
  | succ n ih =>
    intro root
    simp only [passesEv]
    rw [List.count_append]
    obtain ⟨h1, h2⟩ := runPass_count X (candidateIds root) root
    by_cases hmem : X ∈ (findAndProcessPricesEv root).2.2
    · have hafter := h2 hmem
      have hno := passesEv_marked X n (findAndProcessPricesEv root).1 hafter
      have hz : List.count X (passesEv n (findAndProcessPricesEv root).1).2 = 0 :=
        List.count_eq_zero.mpr hno
      have h1' : List.count X (findAndProcessPricesEv root).2.2 ≤ 1 := h1
      omega
    · have hz : List.count X (findAndProcessPricesEv root).2.2 = 0 :=
        List.count_eq_zero.mpr hmem
      have := ih (findAndProcessPricesEv root).1
      omega

/-- Claim C3: append-once.  Over any number of engine-driven passes (with no
external removal of markers or injected elements), the insertion-event log
records at most one annotation insertion immediately after any given price
element: an insertion happens only for a candidate whose processed marker is
still unset, the marker is set before the insertion, and it is never
cleared. -/
theorem claim_C3_append_once (n : ℕ) (root : DNode) (X : ℕ) :
    List.count X (passesEv n root).2 ≤ 1 :=
  passesEv_count_le_one X n root

/-- Claim C9: the reentrancy guard.  First, whenever an iteration of the
pass reaches the injector, the container of the product block was
unprocessed beforehand and the injector is invoked on the tree in which that
container has already been marked.  Second, within a single pass the product
blocks that reach the injector have pairwise distinct containers: two price
candidates resolving to the same container can never both trigger it, since
the walk aborts on a marked container.  Candidates are processed in document
order, so the block built for a container is the one of its
first-discovered valid pair. -/
theorem claim_C9_reentrancy_guard :
    (∀ (root : DNode) (c : ℕ) (bm : BestMatch),
        (processOneEv root c).2.1 = some bm →
        getProcessed bm.container root = some false ∧
        (processOneEv root c).1 = processProductBlock (setProcessed bm.container root) bm) ∧
      ∀ root : DNode,
        (((findAndProcessPricesEv root).2.1).map fun b => b.container).Nodup :=
  ⟨fun root c bm h =>
    ⟨(processOneEv_bm_spec root c bm h).2.2.1, (processOneEv_bm_spec root c bm h).2.2.2.1⟩,
    fun root => runPass_containers_nodup (candidateIds root) root⟩

unseal Rat.mul Rat.add Rat.inv in
theorem claim_C9_reentrancy_guard_witness :
    (processOneEv okBody 2).2.1 = some ⟨2, 2, 5, 100, "g"⟩ ∧
      getProcessed ((⟨2, 2, 5, 100, "g"⟩ : BestMatch).container) okBody = some false :=
  ⟨by decide,
    (claim_C9_reentrancy_guard.1 okBody 2 ⟨2, 2, 5, 100, "g"⟩ (by decide)).1⟩

/-- Claim C2, amended: the second pass can inject new annotations for
candidates the first pass skipped (see the counterexample), but it never
re-injects for a price element the first pass already served — across the
two runs every price element receives at most one insertion. -/
theorem claim_C2_amended_two_passes (root : DNode) (X : ℕ) :
    List.count X (passesEv 2 root).2 ≤ 1 :=
  passesEv_count_le_one X 2 root

end PWCI
